import Mathlib

/-!
Verification of the execution core of the bioinfo-flow workflow engine.

The definitions below are shallow embeddings of the Python sources:
  * src/bioflow/engine/dependency.py        (ExecutionDependencyResolver)
  * src/bioflow/engine/workflow.py          (WorkflowEngine.execute)
  * src/bioflow/engine/executors/command.py (CommandExecutor)
  * src/bioflow/engine/executors/container.py (ContainerExecutor)
  * src/bioinfo_flow/parser/resolvers/dependency_resolver.py (DependencyResolver)
  * src/bioinfo_flow/parser/resolvers/variable_resolver.py   (VariableResolver)
  * src/bioinfoflow/executor/scheduler.py   (TaskScheduler)
  * src/bioinfoflow/executor/context.py     (StepContext)

Strings that are scanned character by character (regular-expression work)
are modelled as `List Char`; strings that are only concatenated are
modelled as `String`.
-/

namespace BioFlow

/-! ## Basic list/string utilities -/

/-- `startsWithL pat l` : `pat` is an initial segment of `l`. -/
def startsWithL : List Char → List Char → Bool
  | [], _ => true
  | _ :: _, [] => false
  | p :: ps, c :: cs => p = c && startsWithL ps cs

/-- `hasSub pat l` : `pat` occurs as a contiguous substring of `l`.
Models Python `pat in l`. -/
def hasSub (pat : List Char) : List Char → Bool
  | [] => startsWithL pat []
  | c :: cs => startsWithL pat (c :: cs) || hasSub pat cs

theorem startsWithL_nil (l : List Char) : startsWithL [] l = true := by
  cases l <;> rfl

theorem hasSub_of_startsWithL (pat l : List Char) (h : startsWithL pat l = true) :
    hasSub pat l = true := by
  cases l with
  | nil => simpa [hasSub] using h
  | cons c cs => simp [hasSub, h]

/-! ## Execution state model (src/bioflow/engine/models.py)

`StepExecutionState` carries a status, an optional exit code and an
optional error message.  Timestamps are not modelled. -/

inductive ExecutionStatus where
  | pending | running | completed | failed | skipped | cancelled
deriving DecidableEq, Repr

structure StepExecutionState where
  stepName : String
  status : ExecutionStatus
  exitCode : Option Int := none
  errorMessage : Option String := none
deriving DecidableEq, Repr

/-! ## Data model (src/bioflow/parser/models.py)

Only the fields the engine and the executors read are embedded. -/

inductive StepTy where
  | single | parallelGroup | sequentialGroup
deriving DecidableEq, Repr

structure Mount where
  host : String
  container : String
deriving DecidableEq, Repr

structure Container where
  type : String
  image : String
  version : Option String := none
  mounts : List Mount := []
  environment : List (String × String) := []
deriving DecidableEq, Repr

structure Step where
  name : String
  type : StepTy
  command : Option String := none
  dependsOn : List String := []
  inputValues : List String := []
  container : Option Container := none
deriving DecidableEq, Repr

/-! Python `dict` as an insertion-ordered association list.
`dictSet` models `d[k] = v` and `dictUpdate` models `d.update(e)`:
an existing key keeps its position, a new key is appended. -/

def dictSet (d : List (String × String)) (k v : String) : List (String × String) :=
  if d.any (fun p => p.1 = k) then
    d.map (fun p => if p.1 = k then (p.1, v) else p)
  else
    d ++ [(k, v)]

def dictUpdate (d e : List (String × String)) : List (String × String) :=
  e.foldl (fun acc p => dictSet acc p.1 p.2) d

/-! ## Command executor (src/bioflow/engine/executors/command.py)

`_run_command` spawns the subprocess and either raises or yields
`(returncode, stdout_bytes, stderr_bytes)`.  The outcome of that call is
an oracle argument here; `decode-if-nonempty` happens inside, as in the
source (`stdout.decode() if stdout else None`). -/

inductive RunOutcome where
  /-- the subprocess ran; `rc` is `process.returncode` (None possible),
  `out`/`err` are the captured byte buffers (as strings). -/
  | ran (rc : Option Int) (out err : String)
  /-- an exception escaped the spawn/communicate calls. -/
  | exc (msg : String)
deriving DecidableEq, Repr

/-- Truthiness of `Optional[str]` in Python: `None` and `""` are falsy. -/
def optStrTruthy : Option String → Bool
  | none => false
  | some s => s ≠ ""

/-- Python `a or b` on `Optional[str]` values. -/
def pyOr (a b : Option String) : Option String :=
  if optStrTruthy a then a else b

/-- `CommandExecutor._run_command`: returns
`(returncode if not None else -1, decode-if-nonempty stdout, decode-if-nonempty stderr)`. -/
def runCommandResult (rc : Option Int) (out err : String) :
    Int × Option String × Option String :=
  (rc.getD (-1),
   if out ≠ "" then some out else none,
   if err ≠ "" then some err else none)

/-- `CommandExecutor.execute`.  The body around `_run_command` is a
`try`/`except` that converts any exception into a `failed` state, so the
function is total. -/
def commandExecute (step : Step) (run : RunOutcome) : StepExecutionState :=
  match run with
  | .ran rc out err =>
    let r := runCommandResult rc out err
    let exitCode := r.1
    let stdout := r.2.1
    let stderr := r.2.2
    let status := if exitCode = 0 then ExecutionStatus.completed else ExecutionStatus.failed
    let errorMessage :=
      if status = ExecutionStatus.failed then
        pyOr stderr (pyOr stdout (some s!"Command failed with exit code {exitCode}"))
      else none
    { stepName := step.name, status := status, exitCode := some exitCode,
      errorMessage := errorMessage }
  | .exc msg =>
    { stepName := step.name, status := ExecutionStatus.failed,
      exitCode := none, errorMessage := some msg }

/-- `CommandExecutor.can_execute`. -/
def commandCanExecute (step : Step) : Bool :=
  step.type = StepTy.single && step.command ≠ none && step.container = none

/-! ## Container executor (src/bioflow/engine/executors/container.py) -/

/-- Outcome of the `docker image inspect` / `docker pull` probes inside
`_ensure_image`: return codes and the captured stderr of the pull. -/
inductive ImageOutcome where
  | probe (inspectRc : Int) (pullRc : Int) (pullStderr : String)
  | exc (msg : String)
deriving DecidableEq, Repr

/-- `str(e)` for `ContainerError(message, step_name)`
(src/bioflow/engine/exceptions.py): `"Step '<name>': <message>"`. -/
def containerErrorStr (message stepName : String) : String :=
  s!"Step '{stepName}': {message}"

/-- Python `a or b` for `a : Optional[str]` and a plain default:
`None` and `""` are falsy. -/
def pyOrStr (a : Option String) (b : String) : String :=
  match a with
  | some v => if v ≠ "" then v else b
  | none => b

/-- Effective image reference `f"{image}:{version or 'latest'}"`:
the tag falls back to `"latest"` when `version` is `None` *or* the
empty string (Python truthiness). -/
def imageRef (c : Container) : String :=
  c.image ++ ":" ++ pyOrStr c.version "latest"

/-- `ContainerExecutor._ensure_image`.  A failed pull raises a
`ContainerError` inside the `try`, which the `except` clause wraps into a
second `ContainerError`. -/
def ensureImage (c : Container) (stepName : String) (img : ImageOutcome) :
    Except String Unit :=
  match img with
  | .probe inspectRc pullRc pullStderr =>
    if inspectRc ≠ 0 then
      if pullRc ≠ 0 then
        .error (containerErrorStr
          (s!"Error ensuring image {imageRef c}: " ++
            containerErrorStr (s!"Failed to pull image {imageRef c}: {pullStderr}") stepName)
          stepName)
      else .ok ()
    else .ok ()
  | .exc msg =>
    .error (containerErrorStr (s!"Error ensuring image {imageRef c}: {msg}") stepName)

/-- `ContainerExecutor._prepare_env`: workflow env then
`container.environment`, dict-update semantics. -/
def containerEnv (ctxEnv : List (String × String)) (c : Container) :
    List (String × String) :=
  dictUpdate ctxEnv c.environment

/-- `ContainerExecutor._prepare_mounts`: the step working directory is
mounted at `/workspace` first, then the step mounts. -/
def containerMounts (c : Container) (cwd : String) : List Mount :=
  { host := cwd, container := "/workspace" } :: c.mounts

/-- `ContainerExecutor._run_container`, command-assembly part: the exact
argument vector handed to the container backend. -/
def buildContainerCmd (c : Container) (command : Option String)
    (ctxEnv : List (String × String)) (cwd : String) : List String :=
  ["docker", "run", "--rm"]
    ++ (containerEnv ctxEnv c).flatMap (fun p => ["-e", p.1 ++ "=" ++ p.2])
    ++ (containerMounts c cwd).flatMap (fun m => ["-v", m.host ++ ":" ++ m.container])
    ++ [imageRef c]
    ++ (match command with
        | some cmd => if cmd ≠ "" then ["/bin/sh", "-c", cmd] else []
        | none => [])

/-- The `try`/`except` body of `ContainerExecutor.execute`: everything
in it is caught and turned into a `failed` state, so it is a total
function into states. -/
def containerTryBody (name : String) (c : Container) (img : ImageOutcome)
    (run : RunOutcome) : StepExecutionState :=
  match ensureImage c name img with
  | .error msg =>
    { stepName := name, status := ExecutionStatus.failed,
      exitCode := none, errorMessage := some msg }
  | .ok () =>
    match run with
    | .ran rc out err =>
      let r := runCommandResult rc out err
      let exitCode := r.1
      let stdout := r.2.1
      let stderr := r.2.2
      let status := if exitCode = 0 then ExecutionStatus.completed else ExecutionStatus.failed
      let errorMessage :=
        if status = ExecutionStatus.failed then
          pyOr stderr (pyOr stdout (some s!"Container failed with exit code {exitCode}"))
        else none
      { stepName := name, status := status, exitCode := some exitCode,
        errorMessage := errorMessage }
    | .exc msg =>
      { stepName := name, status := ExecutionStatus.failed,
        exitCode := none,
        errorMessage := some (containerErrorStr s!"Container execution failed: {msg}" name) }

/-- `ContainerExecutor.execute`.  The guard `if not step.container: raise
ContainerError(...)` sits before the `try`/`except` block, so it
propagates; everything after it is the caught body. -/
def containerExecute (step : Step) (img : ImageOutcome) (run : RunOutcome) :
    Except String StepExecutionState :=
  match step.container with
  | none => .error (containerErrorStr "No container configuration provided" step.name)
  | some c => .ok (containerTryBody step.name c img run)

/-- `ContainerExecutor.can_execute`. -/
def containerCanExecute (step : Step) : Bool :=
  step.type = StepTy.single &&
    (match step.container with
     | some c => c.type.toLower = "docker"
     | none => false)

/-! ## Execution dependency resolver (src/bioflow/engine/dependency.py)

`ExecutionDependencyResolver` keeps the step names (insertion order of
the `steps` dict) and, for each step, the set of its `depends_on`
entries.  `get_execution_layers` repeatedly takes the steps all of whose
dependencies are already completed; if no step is ready while some
remain, `ValueError("Cycle detected in step dependencies")` is raised. -/

structure ExecResolver where
  steps : List String
  deps : String → List String

/-- State after `add_step` was called for each `(name, depends_on)` pair. -/
def mkResolver (l : List (String × List String)) : ExecResolver :=
  { steps := l.map (fun p => p.1),
    deps := fun n => ((l.find? (fun p => p.1 = n)).map (fun p => p.2)).getD [] }

theorem filter_length_lt_of_mem_not {α : Type} (l : List α) (p : α → Bool)
    (x : α) (hx : x ∈ l) (hpx : p x = false) :
    (l.filter p).length < l.length := by
  induction l with
  | nil => cases hx
  | cons a as ih =>
    rcases List.mem_cons.mp hx with h | h
    · subst h
      simp only [List.filter_cons, hpx]
      exact Nat.lt_succ_of_le (List.length_filter_le _ _)
    · by_cases hpa : p a = true
      · simpa [List.filter_cons, hpa] using Nat.succ_lt_succ (ih h)
      · simp only [List.filter_cons, Bool.not_eq_true] at hpa
        simp only [List.filter_cons, hpa]
        exact Nat.lt_succ_of_lt (ih h)

/-- The loop body of `get_execution_layers`: `remaining` and `completed`
evolve until `remaining` is empty; each iteration emits the ready set as
one layer. -/
def layersAux (deps : String → List String) :
    (remaining : List String) → (completed : List String) →
    Except String (List (List String))
  | remaining, completed =>
    if hrem : remaining = [] then .ok []
    else
      let ready := remaining.filter (fun n => decide (∀ d ∈ deps n, d ∈ completed))
      if hrdy : ready = [] then .error "Cycle detected in step dependencies"
      else
        match layersAux deps (remaining.filter (fun n => decide (n ∉ ready)))
            (completed ++ ready) with
        | .ok layers => .ok (ready :: layers)
        | .error e => .error e
  termination_by remaining _ => remaining.length
  decreasing_by
    rcases List.exists_mem_of_ne_nil ready hrdy with ⟨x, hx⟩
    exact filter_length_lt_of_mem_not remaining _ x
      (List.mem_of_mem_filter hx) (by simp [hx])

/-- `ExecutionDependencyResolver.get_execution_layers`. -/
def getExecutionLayers (r : ExecResolver) : Except String (List (List String)) :=
  layersAux r.deps r.steps []

/-! ## Workflow engine (src/bioflow/engine/workflow.py)

`execute` builds the layers, then runs each layer and inspects the
returned states in order; on the first `failed` state it raises
`ExecutionError(f"Step '<name>' failed: <error_message>")`, which the
outer handler converts into a `failed` result.  The per-step executor
outcome is an oracle argument `outcome`. -/

structure EngineResult where
  status : ExecutionStatus
  errorMessage : Option String
  /-- names of the steps that were dispatched to an executor, in layer order. -/
  started : List String
  deriving DecidableEq, Repr

/-- Python `f"{x}"` for `Optional[str]`: `None` renders as `"None"`. -/
def pyStrOpt (o : Option String) : String := o.getD "None"

/-- Scan the (step, state) pairs of one layer in order; return the error
message of the first failed state, if any. -/
def firstFailure (outcome : String → StepExecutionState) :
    List String → Option String
  | [] => none
  | n :: ns =>
    if (outcome n).status = ExecutionStatus.failed then
      some s!"Step '{n}' failed: {pyStrOpt (outcome n).errorMessage}"
    else firstFailure outcome ns

/-- The layer loop of `WorkflowEngine.execute`. -/
def runLayers (outcome : String → StepExecutionState) :
    (layers : List (List String)) → (started : List String) → EngineResult
  | [], started =>
    { status := ExecutionStatus.completed, errorMessage := none, started := started }
  | layer :: rest, started =>
    match firstFailure outcome layer with
    | some msg =>
      { status := ExecutionStatus.failed, errorMessage := some msg,
        started := started ++ layer }
    | none => runLayers outcome rest (started ++ layer)

/-- `WorkflowEngine.execute`: build the dependency graph from the steps'
`depends_on` lists, compute the layers (an exception becomes a `failed`
result with the exception text and no step started), then run the
layers. -/
def engineExecute (stepList : List (String × List String))
    (outcome : String → StepExecutionState) : EngineResult :=
  match getExecutionLayers (mkResolver stepList) with
  | .error msg =>
    { status := ExecutionStatus.failed, errorMessage := some msg, started := [] }
  | .ok layers => runLayers outcome layers []

/-! ## Correctness infrastructure for the layering algorithm -/

/-- Invariant of the layer list produced by `layersAux` when started with
completed set `C`: each layer is nonempty, duplicate-free, disjoint from
`C`, all its dependencies lie in `C`, and everything scheduled later was
not ready yet (has a dependency outside `C`). -/
def GoodLayers (deps : String → List String) : List String → List (List String) → Prop
  | _, [] => True
  | C, l :: rest =>
      l ≠ [] ∧ l.Nodup ∧
      (∀ n ∈ l, ∀ d ∈ deps n, d ∈ C) ∧
      (∀ n ∈ l, n ∉ C) ∧
      (∀ n ∈ rest.flatten, ∃ d ∈ deps n, d ∉ C) ∧
      GoodLayers deps (C ++ l) rest

theorem goodLayers_not_mem_completed (deps : String → List String) :
    ∀ (ls : List (List String)) (C : List String), GoodLayers deps C ls →
      ∀ n ∈ ls.flatten, n ∉ C := by
  intro ls
  induction ls with
  | nil => intro C _ n hn; simp at hn
  | cons l rest ih =>
    intro C hg n hn
    obtain ⟨-, -, -, h4, -, h6⟩ := hg
    rw [List.flatten_cons] at hn
    rcases List.mem_append.mp hn with h | h
    · exact h4 n h
    · intro hC
      exact ih (C ++ l) h6 n h (List.mem_append.mpr (Or.inl hC))

theorem goodLayers_layer_ne_nil (deps : String → List String) :
    ∀ (ls : List (List String)) (C : List String), GoodLayers deps C ls →
      ∀ l ∈ ls, l ≠ [] := by
  intro ls
  induction ls with
  | nil => intro C _ l hl; simp at hl
  | cons l rest ih =>
    intro C hg m hm
    obtain ⟨h1, -, -, -, -, h6⟩ := hg
    rcases List.mem_cons.mp hm with h | h
    · exact h ▸ h1
    · exact ih (C ++ l) h6 m h

theorem goodLayers_deps_in_earlier (deps : String → List String) :
    ∀ (ls : List (List String)) (C : List String), GoodLayers deps C ls →
      ∀ (i : Nat) (hi : i < ls.length), ∀ n ∈ ls.get ⟨i, hi⟩,
        ∀ d ∈ deps n, d ∈ C ++ (ls.take i).flatten := by
  intro ls
  induction ls with
  | nil => intro C _ i hi; simp at hi
  | cons l rest ih =>
    intro C hg i hi n hn d hd
    obtain ⟨-, -, h3, -, -, h6⟩ := hg
    match i with
    | 0 =>
      simpa using h3 n hn d hd
    | i + 1 =>
      have := ih (C ++ l) h6 i (by simpa using hi) n hn d hd
      simpa [List.append_assoc] using this

theorem goodLayers_some_dep_in_prev (deps : String → List String) :
    ∀ (ls : List (List String)) (C : List String), GoodLayers deps C ls →
      ∀ (i : Nat) (hi : i + 1 < ls.length), ∀ n ∈ ls.get ⟨i + 1, hi⟩,
        ∃ d ∈ deps n, d ∈ ls.get ⟨i, Nat.lt_of_succ_lt hi⟩ := by
  intro ls
  induction ls with
  | nil => intro C _ i hi; simp at hi
  | cons l rest ih =>
    intro C hg i hi n hn
    obtain ⟨-, -, -, -, h5, h6⟩ := hg
    match i with
    | 0 =>
      have hrest : 0 < rest.length := by simpa using hi
      have hnflat : n ∈ rest.flatten := by
        exact List.mem_flatten.mpr ⟨rest.get ⟨0, hrest⟩, List.get_mem _ _ _, by simpa using hn⟩
      obtain ⟨d, hd, hdC⟩ := h5 n hnflat
      have hall := goodLayers_deps_in_earlier deps rest (C ++ l) h6 0 hrest n
        (by simpa using hn) d hd
      simp only [List.take_zero, List.flatten_nil, List.append_nil, List.mem_append] at hall
      rcases hall with h | h
      · exact absurd h hdC
      · exact ⟨d, hd, by simpa using h⟩
    | i + 1 =>
      have := ih (C ++ l) h6 i (by simpa using hi) n hn
      simpa using this

theorem goodLayers_disjoint (deps : String → List String) :
    ∀ (ls : List (List String)) (C : List String), GoodLayers deps C ls →
      ∀ (i j : Nat) (hi : i < ls.length) (hj : j < ls.length), i < j →
        ∀ n, n ∈ ls.get ⟨i, hi⟩ → n ∈ ls.get ⟨j, hj⟩ → False := by
  intro ls
  induction ls with
  | nil => intro C _ i j hi; simp at hi
  | cons l rest ih =>
    intro C hg i j hi hj hij n hni hnj
    obtain ⟨-, -, -, -, -, h6⟩ := hg
    match i, j with
    | 0, j + 1 =>
      have hj' : j < rest.length := by simpa using hj
      have hnflat : n ∈ rest.flatten :=
        List.mem_flatten.mpr ⟨rest.get ⟨j, hj'⟩, List.get_mem _ _ _, by simpa using hnj⟩
      have := goodLayers_not_mem_completed deps rest (C ++ l) h6 n hnflat
      exact this (List.mem_append.mpr (Or.inr (by simpa using hni)))
    | i + 1, j + 1 =>
      exact ih (C ++ l) h6 i j (by simpa using hi) (by simpa using hj)
        (Nat.lt_of_succ_lt_succ hij) n (by simpa using hni) (by simpa using hnj)

theorem goodLayers_pairwise (deps : String → List String) :
    ∀ (ls : List (List String)) (C : List String), GoodLayers deps C ls →
      ls.flatten.Pairwise (fun a b => b ∉ deps a) := by
  intro ls
  induction ls with
  | nil => intro C _; simp
  | cons l rest ih =>
    intro C hg
    obtain ⟨-, -, h3, h4, -, h6⟩ := hg
    rw [List.flatten_cons, List.pairwise_append]
    refine ⟨?_, ih (C ++ l) h6, ?_⟩
    · refine List.pairwise_of_forall_mem_list ?_
      intro a ha b hb hbd
      exact h4 b hb (h3 a ha b hbd)
    · intro a ha b hb hbd
      have hbC := goodLayers_not_mem_completed deps rest (C ++ l) h6 b hb
      exact hbC (List.mem_append.mpr (Or.inl (h3 a ha b hbd)))

theorem layersAux_ok (deps : String → List String) (allSteps : List String)
    (hclosed : ∀ s ∈ allSteps, ∀ d ∈ deps s, d ∈ allSteps)
    (hacyc : ∀ R : List String, R ≠ [] → (∀ x ∈ R, x ∈ allSteps) →
      ∃ n ∈ R, ∀ d ∈ deps n, d ∉ R)
    (remaining completed : List String)
    (hnd : remaining.Nodup)
    (hdisj : ∀ x ∈ remaining, x ∉ completed)
    (hcover : ∀ x, x ∈ allSteps ↔ (x ∈ completed ∨ x ∈ remaining)) :
    ∃ ls, layersAux deps remaining completed = .ok ls ∧
      ls.flatten.Perm remaining ∧ GoodLayers deps completed ls := by
  by_cases hrem : remaining = []
  · subst hrem
    refine ⟨[], ?_, by simp, trivial⟩
    rw [layersAux]
    simp
  · rw [show (∃ ls, layersAux deps remaining completed = Except.ok ls ∧
        ls.flatten.Perm remaining ∧ GoodLayers deps completed ls) =
        (∃ ls, layersAux deps remaining completed = Except.ok ls ∧
        ls.flatten.Perm remaining ∧ GoodLayers deps completed ls) from rfl]
    rw [layersAux]
    simp only [dif_neg hrem]
    set ready := remaining.filter (fun n => decide (∀ d ∈ deps n, d ∈ completed))
      with hready
    set rem2 := remaining.filter (fun n => decide (n ∉ ready)) with hrem2
    have hreadysub : ∀ x ∈ ready, x ∈ remaining := fun x hx => List.mem_of_mem_filter hx
    have hmemready : ∀ x, x ∈ ready ↔ x ∈ remaining ∧ ∀ d ∈ deps x, d ∈ completed := by
      intro x; simp [hready, List.mem_filter]
    obtain ⟨n0, hn0, hn0d⟩ :=
      hacyc remaining hrem (fun x hx => (hcover x).mpr (Or.inr hx))
    have hn0ready : n0 ∈ ready := by
      refine (hmemready n0).mpr ⟨hn0, ?_⟩
      intro d hd
      have hdall : d ∈ allSteps := hclosed n0 ((hcover n0).mpr (Or.inr hn0)) d hd
      rcases (hcover d).mp hdall with h | h
      · exact h
      · exact absurd h (hn0d d hd)
    have hrdy : ready ≠ [] := fun h => by simp [h] at hn0ready
    have hmemrem2 : ∀ x, x ∈ rem2 ↔ x ∈ remaining ∧ x ∉ ready := by
      intro x; simp [hrem2, List.mem_filter]
    have hperm : (ready ++ rem2).Perm remaining := by
      have hcongr : rem2 = remaining.filter
          (fun n => !(fun m => decide (∀ d ∈ deps m, d ∈ completed)) n) := by
        rw [hrem2]
        refine List.filter_congr ?_
        intro x hx
        by_cases hxr : x ∈ ready
        · have hc := ((hmemready x).mp hxr).2
          have hdec : decide (∀ d ∈ deps x, d ∈ completed) = true := decide_eq_true hc
          simp [hxr, hdec]
        · have hnc : ¬ (∀ d ∈ deps x, d ∈ completed) :=
            fun hc => hxr ((hmemready x).mpr ⟨hx, hc⟩)
          simp [hxr, hnc]
      rw [hcongr, hready]
      exact List.filter_append_perm _ remaining
    have hlen : rem2.length < remaining.length := by
      have hle := hperm.length_eq
      rw [List.length_append] at hle
      have hrl : 0 < ready.length := List.length_pos.mpr hrdy
      omega
    obtain ⟨ls2, heq2, hperm2, hgood2⟩ :=
      layersAux_ok deps allSteps hclosed hacyc rem2 (completed ++ ready)
        (hnd.filter _)
        (fun x hx => by
          rcases (hmemrem2 x).mp hx with ⟨hxm, hxr⟩
          intro hmem
          rcases List.mem_append.mp hmem with h | h
          · exact hdisj x hxm h
          · exact hxr h)
        (fun x => by
          constructor
          · intro hx
            rcases (hcover x).mp hx with h | h
            · exact Or.inl (List.mem_append.mpr (Or.inl h))
            · by_cases hxr : x ∈ ready
              · exact Or.inl (List.mem_append.mpr (Or.inr hxr))
              · exact Or.inr ((hmemrem2 x).mpr ⟨h, hxr⟩)
          · intro hx
            rcases hx with h | h
            · rcases List.mem_append.mp h with h1 | h1
              · exact (hcover x).mpr (Or.inl h1)
              · exact (hcover x).mpr (Or.inr (hreadysub x h1))
            · exact (hcover x).mpr (Or.inr ((hmemrem2 x).mp h).1))
    rw [dif_neg hrdy, heq2]
    refine ⟨ready :: ls2, rfl, ?_, ?_⟩
    · rw [List.flatten_cons]
      exact (hperm2.append_left ready).trans hperm
    · refine ⟨hrdy, hnd.filter _, ?_, ?_, ?_, hgood2⟩
      · intro m hm d hd
        exact ((hmemready m).mp hm).2 d hd
      · intro m hm
        exact hdisj m (hreadysub m hm)
      · intro m hm
        have hm2 : m ∈ rem2 := hperm2.mem_iff.mp hm
        rcases (hmemrem2 m).mp hm2 with ⟨hmm, hmr⟩
        have hnc : ¬ (∀ d ∈ deps m, d ∈ completed) :=
          fun hc => hmr ((hmemready m).mpr ⟨hmm, hc⟩)
        push_neg at hnc
        exact hnc
  termination_by remaining.length
  decreasing_by exact hlen

/-! ## Maximum predecessor depth

The spec defines layer membership by `max_pred_depth`: a step with no
predecessors has depth 0, otherwise the depth is one more than the
largest depth among its dependencies.  `depthF` computes this with
explicit fuel; on an acyclic graph any fuel of at least the number of
steps is enough (proved through the layer structure below). -/

def depthF (deps : String → List String) : Nat → String → Nat
  | 0, _ => 0
  | fuel + 1, n =>
    if deps n = [] then 0
    else ((deps n).map (depthF deps fuel)).foldr max 0 + 1

/-- `max_pred_depth` of a step of the workflow. -/
def maxPredDepth (r : ExecResolver) (n : String) : Nat :=
  depthF r.deps r.steps.length n

theorem foldr_max_le (l : List Nat) (m : Nat) (h : ∀ x ∈ l, x ≤ m) :
    l.foldr max 0 ≤ m := by
  induction l with
  | nil => exact Nat.zero_le m
  | cons a as ih =>
    exact max_le (h a (by simp)) (ih (fun x hx => h x (by simp [hx])))

theorem le_foldr_max (l : List Nat) (x : Nat) (hx : x ∈ l) :
    x ≤ l.foldr max 0 := by
  induction l with
  | nil => cases hx
  | cons a as ih =>
    rcases List.mem_cons.mp hx with h | h
    · subst h
      exact le_max_left x _
    · exact le_trans (ih h) (le_max_right a _)

theorem foldr_max_eq (l : List Nat) (m : Nat) (hall : ∀ x ∈ l, x ≤ m)
    (hmem : m ∈ l) : l.foldr max 0 = m :=
  le_antisymm (foldr_max_le l m hall) (le_foldr_max l m hmem)

theorem mem_take_flatten_idx {α : Type} :
    ∀ (ls : List (List α)) (m : Nat) (d : α), d ∈ (ls.take m).flatten →
      ∃ (j : Nat) (hj : j < ls.length), j < m ∧ d ∈ ls.get ⟨j, hj⟩ := by
  intro ls
  induction ls with
  | nil => intro m d hd; simp at hd
  | cons l rest ih =>
    intro m d hd
    match m with
    | 0 => simp at hd
    | m + 1 =>
      rw [List.take_succ_cons, List.flatten_cons] at hd
      rcases List.mem_append.mp hd with h | h
      · exact ⟨0, by simp, Nat.succ_pos m, by simpa using h⟩
      · obtain ⟨j, hj, hjm, hmem⟩ := ih m d h
        exact ⟨j + 1, by simpa using hj, Nat.succ_lt_succ hjm, by simpa using hmem⟩

theorem mem_flatten_idx {α : Type} (ls : List (List α)) (d : α)
    (hd : d ∈ ls.flatten) :
    ∃ (j : Nat) (hj : j < ls.length), d ∈ ls.get ⟨j, hj⟩ := by
  have hd2 : d ∈ (ls.take ls.length).flatten := by rw [List.take_length]; exact hd
  obtain ⟨j, hj, -, hmem⟩ := mem_take_flatten_idx ls ls.length d hd2
  exact ⟨j, hj, hmem⟩

theorem length_le_length_flatten {α : Type} :
    ∀ (ls : List (List α)), (∀ l ∈ ls, l ≠ []) → ls.length ≤ ls.flatten.length := by
  intro ls
  induction ls with
  | nil => simp
  | cons l rest ih =>
    intro h
    rw [List.flatten_cons, List.length_append, List.length_cons]
    have h1 : 1 ≤ l.length := List.length_pos.mpr (h l (by simp))
    have h2 := ih (fun x hx => h x (by simp [hx]))
    omega

/-- Every element of layer `i` has `depthF`-depth exactly `i`, for any
fuel of at least `i + 1`. -/
theorem goodLayers_depth (deps : String → List String) (ls : List (List String))
    (hg : GoodLayers deps [] ls) :
    ∀ (i : Nat), ∀ (hi : i < ls.length) (n : String), n ∈ ls.get ⟨i, hi⟩ →
      ∀ fuel, i + 1 ≤ fuel → depthF deps fuel n = i := by
  intro i
  induction i using Nat.strong_induction_on with
  | _ i ih =>
    intro hi n hn fuel hfuel
    match i, fuel with
    | _, 0 => omega
    | 0, fuel + 1 =>
      have hdeps : deps n = [] := by
        rw [List.eq_nil_iff_forall_not_mem]
        intro d hd
        have h2 := goodLayers_deps_in_earlier deps ls [] hg 0 hi n hn d hd
        simp at h2
      simp [depthF, hdeps]
    | k + 1, fuel + 1 =>
      obtain ⟨d0, hd0, hd0mem⟩ := goodLayers_some_dep_in_prev deps ls [] hg k hi n hn
      have hdepsne : deps n ≠ [] := fun h => by simp [h] at hd0
      have hfuel2 : k + 1 ≤ fuel := by omega
      have hself : ∀ d ∈ deps n,
          ∃ (j : Nat) (hj : j < ls.length), j ≤ k ∧ d ∈ ls.get ⟨j, hj⟩ := by
        intro d hd
        have hin := goodLayers_deps_in_earlier deps ls [] hg (k + 1) hi n hn d hd
        simp only [List.nil_append] at hin
        obtain ⟨j, hj, hjm, hmem⟩ := mem_take_flatten_idx ls (k + 1) d hin
        exact ⟨j, hj, Nat.lt_succ_iff.mp hjm, hmem⟩
      have hall : ∀ v ∈ (deps n).map (depthF deps fuel), v ≤ k := by
        intro v hv
        obtain ⟨d, hd, hdv⟩ := List.mem_map.mp hv
        obtain ⟨j, hj, hjk, hmem⟩ := hself d hd
        have hdj := ih j (Nat.lt_succ_of_le hjk) hj d hmem fuel (by omega)
        omega
      have hmax : k ∈ (deps n).map (depthF deps fuel) := by
        refine List.mem_map.mpr ⟨d0, hd0, ?_⟩
        exact ih k (Nat.lt_succ_self k) (Nat.lt_of_succ_lt hi) d0 hd0mem fuel hfuel2
      rw [depthF, if_neg hdepsne, foldr_max_eq _ k hall hmax]

theorem goodLayers_layer_nodup (deps : String → List String) :
    ∀ (ls : List (List String)) (C : List String), GoodLayers deps C ls →
      ∀ l ∈ ls, l.Nodup := by
  intro ls
  induction ls with
  | nil => intro C _ l hl; simp at hl
  | cons l rest ih =>
    intro C hg m hm
    obtain ⟨-, h2, -, -, -, h6⟩ := hg
    rcases List.mem_cons.mp hm with h | h
    · exact h ▸ h2
    · exact ih (C ++ l) h6 m h

/-- Helper for instantiating the acyclicity hypothesis on concrete
workflows: if the step list is already topologically sorted (no step
depends on itself or on a later step), every nonempty subset of the
steps has an element none of whose dependencies lie in the subset. -/
theorem acyclic_of_sorted (deps : String → List String) (steps : List String)
    (hnd : steps.Nodup)
    (hirr : ∀ n ∈ steps, n ∉ deps n)
    (hsort : steps.Pairwise (fun a b => b ∉ deps a)) :
    ∀ R : List String, R ≠ [] → (∀ x ∈ R, x ∈ steps) →
      ∃ n ∈ R, ∀ d ∈ deps n, d ∉ R := by
  have hmin : ∀ (R : List String), R ≠ [] →
      ∃ n ∈ R, ∀ m ∈ R, steps.indexOf n ≤ steps.indexOf m := by
    intro R
    induction R with
    | nil => intro h; exact absurd rfl h
    | cons a as ih =>
      intro _
      by_cases has : as = []
      · subst has
        exact ⟨a, by simp, by simp⟩
      · obtain ⟨n, hn, hminn⟩ := ih has
        by_cases hle : steps.indexOf a ≤ steps.indexOf n
        · refine ⟨a, by simp, ?_⟩
          intro m hm
          rcases List.mem_cons.mp hm with h | h
          · exact h ▸ le_refl _
          · exact le_trans hle (hminn m h)
        · refine ⟨n, by simp [hn], ?_⟩
          intro m hm
          rcases List.mem_cons.mp hm with h | h
          · exact h ▸ le_of_not_le hle
          · exact hminn m h
  intro R hne hsub
  obtain ⟨n, hn, hminn⟩ := hmin R hne
  refine ⟨n, hn, ?_⟩
  intro d hd hdR
  have hdS : d ∈ steps := hsub d hdR
  have hnS : n ∈ steps := hsub n hn
  have hdi : steps.indexOf d < steps.length := List.indexOf_lt_length.mpr hdS
  have hni : steps.indexOf n < steps.length := List.indexOf_lt_length.mpr hnS
  have hlt : steps.indexOf n < steps.indexOf d ∨ steps.indexOf d = steps.indexOf n := by
    have := hminn d hdR
    omega
  rcases hlt with h | h
  · have := (List.pairwise_iff_get.mp hsort) ⟨steps.indexOf n, hni⟩ ⟨steps.indexOf d, hdi⟩ h
    rw [List.indexOf_get hni, List.indexOf_get hdi] at this
    exact this hd
  · have : d = n := by
      have h1 := List.indexOf_get hdi
      have h2 := List.indexOf_get hni
      rw [← h1, ← h2]
      congr 1
      exact Fin.ext h
    exact hirr n hnS (this ▸ hd)

/-- A concrete diamond workflow `a → {b, c} → d`, used to instantiate the
layering theorem. -/
def diamondResolver : ExecResolver :=
  mkResolver [("a", []), ("b", ["a"]), ("c", ["a"]), ("d", ["b", "c"])]

/-- **C1.** For every workflow whose dependency graph is acyclic (every
`depends_on` target is a step, and every nonempty subset of the steps
contains a step with no dependency inside the subset), the layering
operation `get_execution_layers` succeeds and returns layers that (i)
partition the step set — their concatenation is duplicate-free and is a
permutation of the steps, with every block nonempty —, (ii) satisfy
`layer i = \x7b n : max_pred_depth n = i \x7d` where steps with no
predecessors have depth 0, and (iii) concatenated in order form a
topological order of the dependency graph (no step occurs before one of
its dependencies). -/
theorem getExecutionLayers_partition_depth_topo (r : ExecResolver)
    (hnd : r.steps.Nodup)
    (hclosed : ∀ s ∈ r.steps, ∀ d ∈ r.deps s, d ∈ r.steps)
    (hacyc : ∀ R : List String, R ≠ [] → (∀ x ∈ R, x ∈ r.steps) →
      ∃ n ∈ R, ∀ d ∈ r.deps n, d ∉ R) :
    ∃ ls, getExecutionLayers r = .ok ls ∧
      ls.flatten.Perm r.steps ∧
      (∀ l ∈ ls, l ≠ [] ∧ l.Nodup) ∧
      (∀ (i : Nat) (hi : i < ls.length) (n : String),
        n ∈ ls.get ⟨i, hi⟩ ↔ n ∈ r.steps ∧ maxPredDepth r n = i) ∧
      ls.flatten.Pairwise (fun a b => b ∉ r.deps a) := by
  obtain ⟨ls, heq, hperm, hgood⟩ :=
    layersAux_ok r.deps r.steps hclosed hacyc r.steps [] hnd (by simp) (by simp)
  have hne : ∀ l ∈ ls, l ≠ [] := goodLayers_layer_ne_nil r.deps ls [] hgood
  refine ⟨ls, heq, hperm, ?_, ?_, goodLayers_pairwise r.deps ls [] hgood⟩
  · intro l hl
    exact ⟨hne l hl, goodLayers_layer_nodup r.deps ls [] hgood l hl⟩
  · intro i hi n
    have hfuel : i + 1 ≤ r.steps.length := by
      have h1 : ls.length ≤ ls.flatten.length := length_le_length_flatten ls hne
      have h2 : ls.flatten.length = r.steps.length := hperm.length_eq
      omega
    constructor
    · intro hn
      have hnsteps : n ∈ r.steps := hperm.mem_iff.mp
        (List.mem_flatten.mpr ⟨ls.get ⟨i, hi⟩, List.get_mem _ _ _, hn⟩)
      exact ⟨hnsteps,
        goodLayers_depth r.deps ls hgood i hi n hn r.steps.length hfuel⟩
    · rintro ⟨hnsteps, hdepth⟩
      have hnflat : n ∈ ls.flatten := hperm.mem_iff.mpr hnsteps
      obtain ⟨j, hj, hmem⟩ := mem_flatten_idx ls n hnflat
      have hjfuel : j + 1 ≤ r.steps.length := by
        have h1 : ls.length ≤ ls.flatten.length := length_le_length_flatten ls hne
        have h2 : ls.flatten.length = r.steps.length := hperm.length_eq
        omega
      have hdj : maxPredDepth r n = j :=
        goodLayers_depth r.deps ls hgood j hj n hmem r.steps.length hjfuel
      have : j = i := by rw [hdj] at hdepth; omega
      subst this
      exact hmem

/-- Witness for the layering theorem: the diamond `a → \x7bb, c\x7d → d`
satisfies all hypotheses, and the conclusion holds for it. -/
theorem getExecutionLayers_partition_depth_topo_witness :
    ∃ ls, getExecutionLayers diamondResolver = .ok ls ∧
      ls.flatten.Perm diamondResolver.steps ∧
      (∀ l ∈ ls, l ≠ [] ∧ l.Nodup) ∧
      (∀ (i : Nat) (hi : i < ls.length) (n : String),
        n ∈ ls.get ⟨i, hi⟩ ↔ n ∈ diamondResolver.steps ∧ maxPredDepth diamondResolver n = i) ∧
      ls.flatten.Pairwise (fun a b => b ∉ diamondResolver.deps a) :=
  getExecutionLayers_partition_depth_topo diamondResolver
    (by decide)
    (by decide)
    (acyclic_of_sorted diamondResolver.deps diamondResolver.steps
      (by decide) (by decide) (by decide))

/-! ## Cyclic workflows (C7) -/

/-- If some nonempty set `S` of still-remaining steps is closed the wrong
way round — every member has a dependency inside `S` — then the layer
loop ends in the `ValueError`. -/
theorem layersAux_cycle_error (deps : String → List String)
    (remaining completed : List String)
    (hdisj : ∀ x ∈ remaining, x ∉ completed)
    (S : List String) (hSne : S ≠ []) (hSsub : ∀ n ∈ S, n ∈ remaining)
    (hScyc : ∀ n ∈ S, ∃ d ∈ deps n, d ∈ S) :
    layersAux deps remaining completed = .error "Cycle detected in step dependencies" := by
  obtain ⟨n1, hn1⟩ := List.exists_mem_of_ne_nil S hSne
  have hrem : remaining ≠ [] := fun h => by
    have := hSsub n1 hn1; rw [h] at this; cases this
  have hSnotready : ∀ n ∈ S,
      ¬ (∀ d ∈ deps n, d ∈ completed) := by
    intro n hn hc
    obtain ⟨d, hd, hdS⟩ := hScyc n hn
    exact hdisj d (hSsub d hdS) (hc d hd)
  rw [layersAux]
  simp only [dif_neg hrem]
  set ready := remaining.filter (fun n => decide (∀ d ∈ deps n, d ∈ completed))
    with hready
  by_cases hrdy : ready = []
  · simp [hrdy]
  · rw [dif_neg hrdy]
    set rem2 := remaining.filter (fun n => decide (n ∉ ready)) with hrem2
    have hSready : ∀ n ∈ S, n ∉ ready := by
      intro n hn hmem
      have := (List.mem_filter.mp hmem).2
      exact hSnotready n hn (by simpa using this)
    have hSsub2 : ∀ n ∈ S, n ∈ rem2 := by
      intro n hn
      rw [hrem2, List.mem_filter]
      exact ⟨hSsub n hn, by simpa using hSready n hn⟩
    have hlen2 : rem2.length < remaining.length := by
      obtain ⟨x, hx⟩ := List.exists_mem_of_ne_nil ready hrdy
      have hxmem : x ∈ remaining := List.mem_of_mem_filter hx
      refine filter_length_lt_of_mem_not remaining _ x hxmem ?_
      simp [hx]
    have hdisj2 : ∀ x ∈ rem2, x ∉ completed ++ ready := by
      intro x hx hmem
      rcases List.mem_append.mp hmem with h | h
      · exact hdisj x (List.mem_of_mem_filter hx) h
      · have := (List.mem_filter.mp hx).2
        simp at this
        exact this h
    have hrec := layersAux_cycle_error deps rem2 (completed ++ ready) hdisj2
      S hSne hSsub2 hScyc
    rw [hrec]
  termination_by remaining.length
  decreasing_by exact hlen2

/-- **C7 (amended).** For every workflow whose dependency graph contains
a cycle (a nonempty set of steps each of which depends on another member
of the set), `execute()` returns a failed result without dispatching any
step to an executor, and the error message is
`"Cycle detected in step dependencies"`. -/
theorem engineExecute_cycle (stepList : List (String × List String))
    (outcome : String → StepExecutionState)
    (S : List String) (hSne : S ≠ [])
    (hSsub : ∀ n ∈ S, n ∈ (mkResolver stepList).steps)
    (hScyc : ∀ n ∈ S, ∃ d ∈ (mkResolver stepList).deps n, d ∈ S) :
    engineExecute stepList outcome =
      { status := ExecutionStatus.failed,
        errorMessage := some "Cycle detected in step dependencies",
        started := [] } := by
  have herr : getExecutionLayers (mkResolver stepList) =
      .error "Cycle detected in step dependencies" :=
    layersAux_cycle_error (mkResolver stepList).deps (mkResolver stepList).steps []
      (by simp) S hSne hSsub hScyc
  rw [engineExecute, herr]

/-- Witness for the amended C7 theorem on the two-step cycle
`a depends_on [b]`, `b depends_on [a]`. -/
theorem engineExecute_cycle_witness :
    engineExecute [("a", ["b"]), ("b", ["a"])]
      (fun n => { stepName := n, status := ExecutionStatus.completed }) =
      { status := ExecutionStatus.failed,
        errorMessage := some "Cycle detected in step dependencies",
        started := [] } :=
  engineExecute_cycle [("a", ["b"]), ("b", ["a"])] _ ["a", "b"]
    (by decide) (by decide) (by decide)

/-- **C7 counterexample.** On the cycle `a depends_on [b]`,
`b depends_on [a]` the engine does return a failed result with no step
started, but the error message is the `ValueError` text
`"Cycle detected in step dependencies"`, which does not contain the
substring `"Circular dependency"` claimed by the spec. -/
theorem engineExecute_cycle_message_not_circular :
    (engineExecute [("a", ["b"]), ("b", ["a"])]
        (fun n => { stepName := n, status := ExecutionStatus.completed })).status =
      ExecutionStatus.failed ∧
    (engineExecute [("a", ["b"]), ("b", ["a"])]
        (fun n => { stepName := n, status := ExecutionStatus.completed })).started = [] ∧
    (engineExecute [("a", ["b"]), ("b", ["a"])]
        (fun n => { stepName := n, status := ExecutionStatus.completed })).errorMessage =
      some "Cycle detected in step dependencies" ∧
    hasSub "Circular dependency".data "Cycle detected in step dependencies".data = false := by
  have h : engineExecute [("a", ["b"]), ("b", ["a"])]
      (fun n => { stepName := n, status := ExecutionStatus.completed }) =
      { status := ExecutionStatus.failed,
        errorMessage := some "Cycle detected in step dependencies",
        started := [] } := by
    simp [engineExecute, getExecutionLayers, layersAux, mkResolver, List.find?, List.filter]
  rw [h]
  refine ⟨rfl, rfl, rfl, by decide⟩

/-! ## Failure stops later layers (C3) -/

theorem firstFailure_none (outcome : String → StepExecutionState) :
    ∀ (layer : List String),
      (∀ n ∈ layer, (outcome n).status ≠ ExecutionStatus.failed) →
      firstFailure outcome layer = none := by
  intro layer
  induction layer with
  | nil => intro _; rfl
  | cons a as ih =>
    intro h
    rw [firstFailure, if_neg (h a (by simp))]
    exact ih (fun n hn => h n (by simp [hn]))

theorem firstFailure_some (outcome : String → StepExecutionState) :
    ∀ (layer : List String),
      (∃ n ∈ layer, (outcome n).status = ExecutionStatus.failed) →
      ∃ n ∈ layer, (outcome n).status = ExecutionStatus.failed ∧
        firstFailure outcome layer =
          some s!"Step '{n}' failed: {pyStrOpt (outcome n).errorMessage}" := by
  intro layer
  induction layer with
  | nil => rintro ⟨n, hn, -⟩; cases hn
  | cons a as ih =>
    rintro ⟨n, hn, hfail⟩
    by_cases ha : (outcome a).status = ExecutionStatus.failed
    · exact ⟨a, by simp, ha, by rw [firstFailure, if_pos ha]⟩
    · have hnas : n ∈ as := by
        rcases List.mem_cons.mp hn with h | h
        · exact absurd (h ▸ hfail) ha
        · exact h
      obtain ⟨m, hm, hmf, hmeq⟩ := ih ⟨n, hnas, hfail⟩
      exact ⟨m, by simp [hm], hmf, by rw [firstFailure, if_neg ha]; exact hmeq⟩

theorem runLayers_stops_aux (outcome : String → StepExecutionState) :
    ∀ (layers : List (List String)) (pre : List String) (i : Nat)
      (hi : i < layers.length),
      (∃ n ∈ layers.get ⟨i, hi⟩, (outcome n).status = ExecutionStatus.failed) →
      (∀ (j : Nat) (hj : j < layers.length), j < i →
        ∀ n ∈ layers.get ⟨j, hj⟩, (outcome n).status ≠ ExecutionStatus.failed) →
      ∃ n ∈ layers.get ⟨i, hi⟩, (outcome n).status = ExecutionStatus.failed ∧
        runLayers outcome layers pre =
          { status := ExecutionStatus.failed,
            errorMessage := some s!"Step '{n}' failed: {pyStrOpt (outcome n).errorMessage}",
            started := pre ++ (layers.take (i + 1)).flatten } := by
  intro layers
  induction layers with
  | nil => intro pre i hi; simp at hi
  | cons l rest ih =>
    intro pre i hi hfail hok
    match i with
    | 0 =>
      obtain ⟨n, hn, hnf, hneq⟩ := firstFailure_some outcome l (by simpa using hfail)
      refine ⟨n, by simpa using hn, hnf, ?_⟩
      rw [runLayers, hneq]
      simp
    | i + 1 =>
      have hl : ∀ n ∈ l, (outcome n).status ≠ ExecutionStatus.failed := by
        intro n hn
        exact hok 0 (by simp) (Nat.succ_pos i) n (by simpa using hn)
      obtain ⟨n, hn, hnf, hneq⟩ := ih (pre ++ l) i (by simpa using hi)
        (by simpa using hfail)
        (fun j hj hji n hn =>
          hok (j + 1) (by simpa using hj) (Nat.succ_lt_succ hji) n (by simpa using hn))
      refine ⟨n, by simpa using hn, hnf, ?_⟩
      rw [runLayers, firstFailure_none outcome l hl, hneq]
      simp [List.append_assoc]

/-- **C3.** During layered execution, if some step of layer `i` ends in
state `failed` (and no earlier layer has a failed step, so layer `i` is
the one at which the engine stops), then the engine raises out of the
layer loop after finishing layer `i`: every step of layers `0..i` was
dispatched and no step of any later layer is started, the result status
is `failed`, and the error message is
`"Step '<name>' failed: <error_message>"` for a failed step of that
layer (the first one in layer order). -/
theorem runLayers_failure_stops (outcome : String → StepExecutionState)
    (layers : List (List String)) (i : Nat) (hi : i < layers.length)
    (hfail : ∃ n ∈ layers.get ⟨i, hi⟩, (outcome n).status = ExecutionStatus.failed)
    (hok : ∀ (j : Nat) (hj : j < layers.length), j < i →
      ∀ n ∈ layers.get ⟨j, hj⟩, (outcome n).status ≠ ExecutionStatus.failed) :
    ∃ n ∈ layers.get ⟨i, hi⟩, (outcome n).status = ExecutionStatus.failed ∧
      runLayers outcome layers [] =
        { status := ExecutionStatus.failed,
          errorMessage := some s!"Step '{n}' failed: {pyStrOpt (outcome n).errorMessage}",
          started := (layers.take (i + 1)).flatten } := by
  have h := runLayers_stops_aux outcome layers [] i hi hfail hok
  simpa using h

/-- A concrete executor outcome in which only step `b` fails. -/
def failingOutcome : String → StepExecutionState := fun m =>
  if m = "b" then
    { stepName := m, status := ExecutionStatus.failed, errorMessage := some "boom" }
  else { stepName := m, status := ExecutionStatus.completed }

/-- Witness for C3: three layers `[[a], [b], [c]]` with `b` failing;
the run stops after layer 1, `c` is never started, and the message names
`b`. -/
theorem runLayers_failure_stops_witness :
    ∃ n ∈ [["a"], ["b"], ["c"]].get ⟨1, by decide⟩,
      (failingOutcome n).status = ExecutionStatus.failed ∧
      runLayers failingOutcome [["a"], ["b"], ["c"]] [] =
        { status := ExecutionStatus.failed,
          errorMessage := some s!"Step '{n}' failed: {pyStrOpt (failingOutcome n).errorMessage}",
          started := ([["a"], ["b"], ["c"]].take 2).flatten } :=
  runLayers_failure_stops failingOutcome [["a"], ["b"], ["c"]] 1 (by decide)
    ⟨"b", by decide, by decide⟩
    (by
      intro j hj hji n hn
      have hj0 : j = 0 := by omega
      subst hj0
      have hna : n = "a" := by
        simpa using hn
      subst hna
      decide)

/-! ## Executor theorems (C5, C6, C10) -/

/-- **C5.** For a local single step whose subprocess ran, the executor
records the exit code (`-1` when `returncode` is unavailable), the state
is `completed` iff the exit code is 0 and `failed` otherwise (never an
exception — `commandExecute` is a total function into states), and on
failure the error message is stderr if non-empty, else stdout if
non-empty, else `"Command failed with exit code N"`. -/
theorem commandExecute_exit_semantics (step : Step) (rc : Option Int) (out err : String) :
    (commandExecute step (.ran rc out err)).exitCode = some (rc.getD (-1)) ∧
    ((commandExecute step (.ran rc out err)).status = ExecutionStatus.completed ↔
      rc.getD (-1) = 0) ∧
    ((commandExecute step (.ran rc out err)).status = ExecutionStatus.completed ∨
      (commandExecute step (.ran rc out err)).status = ExecutionStatus.failed) ∧
    ((commandExecute step (.ran rc out err)).status = ExecutionStatus.failed →
      (commandExecute step (.ran rc out err)).errorMessage =
        (if err ≠ "" then some err
         else if out ≠ "" then some out
         else some s!"Command failed with exit code {rc.getD (-1)}")) := by
  by_cases hz : rc.getD (-1) = 0
  · refine ⟨by simp [commandExecute, runCommandResult], ?_, ?_, ?_⟩
    · simp [commandExecute, runCommandResult, hz]
    · simp [commandExecute, runCommandResult, hz]
    · simp [commandExecute, runCommandResult, hz]
  · refine ⟨by simp [commandExecute, runCommandResult], ?_, ?_, ?_⟩
    · simp [commandExecute, runCommandResult, hz]
    · simp [commandExecute, runCommandResult, hz]
    · intro _
      by_cases herr : err = ""
      · by_cases hout : out = ""
        · simp [commandExecute, runCommandResult, hz, herr, hout, pyOr, optStrTruthy]
        · simp [commandExecute, runCommandResult, hz, herr, hout, pyOr, optStrTruthy]
      · simp [commandExecute, runCommandResult, hz, herr, pyOr, optStrTruthy]

/-- Witness for C5 at a failing run: exit code 3, empty stdout,
stderr "E". -/
theorem commandExecute_exit_semantics_witness :
    (commandExecute { name := "s", type := StepTy.single } (.ran (some 3) "" "E")).exitCode =
      some ((some (3 : Int)).getD (-1)) ∧
    ((commandExecute { name := "s", type := StepTy.single } (.ran (some 3) "" "E")).status =
      ExecutionStatus.completed ↔ (some (3 : Int)).getD (-1) = 0) ∧
    ((commandExecute { name := "s", type := StepTy.single } (.ran (some 3) "" "E")).status =
      ExecutionStatus.completed ∨
      (commandExecute { name := "s", type := StepTy.single } (.ran (some 3) "" "E")).status =
      ExecutionStatus.failed) ∧
    ((commandExecute { name := "s", type := StepTy.single } (.ran (some 3) "" "E")).status =
      ExecutionStatus.failed →
      (commandExecute { name := "s", type := StepTy.single } (.ran (some 3) "" "E")).errorMessage =
        (if ("E" : String) ≠ "" then some "E"
         else if ("" : String) ≠ "" then some ""
         else some s!"Command failed with exit code {(some (3 : Int)).getD (-1)}")) :=
  commandExecute_exit_semantics { name := "s", type := StepTy.single } (some 3) "" "E"

/-- A container whose `version` field is present but empty. -/
def emptyVersionContainer : Container :=
  { type := "docker", image := "img", version := some "" }

/-- **C6 counterexample.** The claim says the tag is the container's
version *if present* else `"latest"`.  At `version = some ""` — a
representable value, and present — the program's `version or 'latest'`
is Python truthiness, so the assembled vector carries `img:latest`
while the claim's tag rule predicts the empty tag `img:`. -/
theorem buildContainerCmd_empty_version :
    buildContainerCmd emptyVersionContainer (some "run") [] "/w" =
      ["docker", "run", "--rm", "-v", "/w:/workspace", "img:latest",
        "/bin/sh", "-c", "run"] ∧
    emptyVersionContainer.version = some "" ∧
    emptyVersionContainer.image ++ ":" ++ (emptyVersionContainer.version.getD "latest") =
      "img:" ∧
    ("img:latest" : String) ≠ "img:" := by
  refine ⟨by decide, rfl, by decide, by decide⟩

/-- **C6 (amended).** For a container step with a nonempty command, the
backend invocation is exactly `docker run --rm`, one `-e K=V` pair per
composed environment entry (workflow env updated with the container
environment), one `-v HOST:CONTAINER` pair per mount with the step
working directory mounted at `/workspace` first, the image as
`<image>:<tag>` where the tag is the version if present *and nonempty*
else `"latest"`, then `/bin/sh -c <command>`. -/
theorem buildContainerCmd_shape (c : Container) (cmd : String) (hcmd : cmd ≠ "")
    (ctxEnv : List (String × String)) (cwd : String) :
    buildContainerCmd c (some cmd) ctxEnv cwd =
      ["docker", "run", "--rm"]
        ++ (dictUpdate ctxEnv c.environment).flatMap (fun p => ["-e", p.1 ++ "=" ++ p.2])
        ++ (["-v", cwd ++ ":" ++ "/workspace"]
            ++ c.mounts.flatMap (fun m => ["-v", m.host ++ ":" ++ m.container]))
        ++ [c.image ++ ":" ++ pyOrStr c.version "latest"]
        ++ ["/bin/sh", "-c", cmd] := by
  simp [buildContainerCmd, containerEnv, containerMounts, imageRef, hcmd]

/-- Witness for the amended C6 on a concrete container with one
environment entry and one extra mount. -/
theorem buildContainerCmd_shape_witness :
    buildContainerCmd
      { type := "docker", image := "ubuntu", version := some "22.04",
        mounts := [{ host := "/data", container := "/mnt" }],
        environment := [("K", "V")] }
      (some "echo hi") [("P", "Q")] "/w/s" =
      ["docker", "run", "--rm"]
        ++ (dictUpdate [("P", "Q")] [("K", "V")]).flatMap
            (fun p => ["-e", p.1 ++ "=" ++ p.2])
        ++ (["-v", "/w/s" ++ ":" ++ "/workspace"]
            ++ [({ host := "/data", container := "/mnt" } : Mount)].flatMap
                (fun m => ["-v", m.host ++ ":" ++ m.container]))
        ++ ["ubuntu" ++ ":" ++ pyOrStr (some "22.04") "latest"]
        ++ ["/bin/sh", "-c", "echo hi"] :=
  buildContainerCmd_shape
    { type := "docker", image := "ubuntu", version := some "22.04",
      mounts := [{ host := "/data", container := "/mnt" }],
      environment := [("K", "V")] }
    "echo hi" (by decide) [("P", "Q")] "/w/s"

/-- **C10 (amended).** For every step whose container configuration is
present (in particular every step the container executor accepts), both
executors return a `StepExecutionState` and propagate nothing, and
every internal exception is converted into a `failed` state carrying
the exception text as `error_message`: a spawn exception in the command
executor yields a `failed` state with exactly that text; every
container run returns `.ok`; an image pull failure yields a `failed`
state whose message is the doubly wrapped `ContainerError` text; and a
spawn exception after a successful image probe yields a `failed` state
with the wrapped `"Container execution failed: ..."` text.  (Without a
container configuration, `ContainerExecutor.execute` raises before its
`try` block; see the counterexample.) -/
theorem executors_never_propagate (step : Step) (c : Container)
    (hc : step.container = some c) (m serr : String) (irc prc : Int)
    (hirc : irc ≠ 0) (hprc : prc ≠ 0)
    (img : ImageOutcome) (himg : ensureImage c step.name img = .ok ())
    (img2 : ImageOutcome) (run2 : RunOutcome) :
    (commandExecute step (.exc m)).status = ExecutionStatus.failed ∧
    (commandExecute step (.exc m)).errorMessage = some m ∧
    (∃ st : StepExecutionState, containerExecute step img2 run2 = .ok st) ∧
    (∀ run : RunOutcome, containerExecute step (.probe irc prc serr) run =
      .ok { stepName := step.name, status := ExecutionStatus.failed,
            exitCode := none,
            errorMessage := some (containerErrorStr
              (s!"Error ensuring image {imageRef c}: " ++
                containerErrorStr (s!"Failed to pull image {imageRef c}: {serr}") step.name)
              step.name) }) ∧
    containerExecute step img (.exc m) =
      .ok { stepName := step.name, status := ExecutionStatus.failed,
            exitCode := none,
            errorMessage := some (containerErrorStr
              s!"Container execution failed: {m}" step.name) } := by
  refine ⟨rfl, rfl, ?_, ?_, ?_⟩
  · exact ⟨containerTryBody step.name c img2 run2, by simp [containerExecute, hc]⟩
  · intro run
    have hens : ensureImage c step.name (.probe irc prc serr) =
        .error (containerErrorStr
          (s!"Error ensuring image {imageRef c}: " ++
            containerErrorStr (s!"Failed to pull image {imageRef c}: {serr}") step.name)
          step.name) := by
      rw [ensureImage]
      rw [if_pos hirc, if_pos hprc]
    simp only [containerExecute, hc]
    rw [containerTryBody.eq_def, hens]
  · simp only [containerExecute, hc]
    rw [containerTryBody.eq_def, himg]

/-- **C10 counterexample.** Called on a step with no container
configuration, `ContainerExecutor.execute` raises (the guard precedes
the `try`/`except` block), so it does not hold for *every* step that the
executor never propagates an exception. -/
theorem containerExecute_no_container_raises :
    containerExecute { name := "s", type := StepTy.single }
      (.probe 0 0 "") (.ran (some 0) "" "") =
      .error (containerErrorStr "No container configuration provided" "s") := rfl

/-- A concrete container configuration and step used to instantiate
the executor theorems. -/
def imgContainer : Container := { type := "docker", image := "img" }

def imgStep : Step :=
  { name := "s", type := StepTy.single, container := some imgContainer }

def serrW : String := "no such image"

def boomW : String := "boom"

/-- Witness for the amended C10 theorem at a concrete container step:
a spawn exception in the command executor, a returned state for a
container run, a failing image pull (inspect and pull both exit 1)
with its exact doubly wrapped message, and a spawn exception after a
successful probe with its exact wrapped message. -/
theorem executors_never_propagate_witness :
    (commandExecute imgStep (.exc boomW)).status = ExecutionStatus.failed ∧
    (commandExecute imgStep (.exc boomW)).errorMessage = some boomW ∧
    (∃ st : StepExecutionState,
      containerExecute imgStep (.probe 1 1 "x") (.ran (some 0) "" "") = .ok st) ∧
    (∀ run : RunOutcome, containerExecute imgStep (.probe 1 1 serrW) run =
      .ok { stepName := imgStep.name, status := ExecutionStatus.failed,
            exitCode := none,
            errorMessage := some (containerErrorStr
              (s!"Error ensuring image {imageRef imgContainer}: " ++
                containerErrorStr s!"Failed to pull image {imageRef imgContainer}: {serrW}"
                  imgStep.name)
              imgStep.name) }) ∧
    containerExecute imgStep (.probe 0 0 "") (.exc boomW) =
      .ok { stepName := imgStep.name, status := ExecutionStatus.failed,
            exitCode := none,
            errorMessage := some (containerErrorStr
              s!"Container execution failed: {boomW}" imgStep.name) } :=
  executors_never_propagate imgStep imgContainer rfl boomW serrW 1 1
    (by decide) (by decide) (.probe 0 0 "") rfl (.probe 1 1 "x") (.ran (some 0) "" "")

/-! ## Task scheduler state machine (C8)

src/bioinfoflow/executor/scheduler.py and context.py.  `StepContext`
tracks a status string (`pending`, `running`, `completed`, `failed`) and
`TaskScheduler.mark_step_running` / `mark_step_completed` /
`mark_step_failed` update the `running` / `completed` / `failed` sets
and the step context.  `mark_step_running` only rejects steps that are
*currently running*; `mark_step_completed` and `mark_step_failed`
require the step to be running.  Resource allocation and timestamps are
not modelled. -/

inductive CtxStatus where
  | pending | running | completed | failed
deriving DecidableEq, Repr

structure SchedState where
  names : List String
  running : List String
  completedSet : List String
  failedSet : List String
  ctxStatus : String → CtxStatus

inductive SchedOp where
  | markRunning (n : String)
  | markCompleted (n : String) (exitCode : Int)
  | markFailed (n : String) (msg : String) (exitCode : Int)
deriving DecidableEq, Repr

/-- `ExecutionContext.__init__`: one `pending` context per step, empty
tracking sets. -/
def initSched (names : List String) : SchedState :=
  { names := names, running := [], completedSet := [], failedSet := [],
    ctxStatus := fun _ => CtxStatus.pending }

/-- One scheduler operation; `.error` models the raised
`SchedulerError` / `ExecutionError`. -/
def applyOp (s : SchedState) (op : SchedOp) : Except String SchedState :=
  match op with
  | .markRunning n =>
    if n ∈ s.running then .error s!"Step already running: {n}"
    else if n ∉ s.names then .error s!"Unknown step: {n}"
    else .ok { s with running := s.running ++ [n],
                      ctxStatus := fun m => if m = n then CtxStatus.running else s.ctxStatus m }
  | .markCompleted n _ =>
    if n ∉ s.running then .error s!"Step not running: {n}"
    else .ok { s with running := s.running.filter (fun m => decide (m ≠ n)),
                      completedSet := s.completedSet ++ [n],
                      ctxStatus := fun m => if m = n then CtxStatus.completed else s.ctxStatus m }
  | .markFailed n _ _ =>
    if n ∉ s.running then .error s!"Step not running: {n}"
    else .ok { s with running := s.running.filter (fun m => decide (m ≠ n)),
                      failedSet := s.failedSet ++ [n],
                      ctxStatus := fun m => if m = n then CtxStatus.failed else s.ctxStatus m }

def applyOps (s : SchedState) : List SchedOp → Except String SchedState
  | [] => .ok s
  | op :: ops =>
    match applyOp s op with
    | .ok s2 => applyOps s2 ops
    | .error e => .error e

/-- The terminal statuses of the step context. -/
def terminalCtx : CtxStatus → Bool
  | .completed => true
  | .failed => true
  | _ => false

/-- Invariant of reachable scheduler states: a step is in the `running`
set exactly when its context status is `running`. -/
def SchedInv (s : SchedState) : Prop :=
  ∀ m, m ∈ s.running ↔ s.ctxStatus m = CtxStatus.running

theorem schedInv_init (names : List String) : SchedInv (initSched names) := by
  intro m
  simp [initSched]

theorem schedInv_applyOp (s s2 : SchedState) (op : SchedOp)
    (hinv : SchedInv s) (h : applyOp s op = .ok s2) : SchedInv s2 := by
  cases op with
  | markRunning n =>
    rw [applyOp] at h
    by_cases h1 : n ∈ s.running
    · simp [h1] at h
    · by_cases h2 : n ∈ s.names
      · simp [h1, h2] at h
        intro m
        subst h
        by_cases hm : m = n <;> simp [hm, h1, hinv m]
      · simp [h1, h2] at h
  | markCompleted n e =>
    rw [applyOp] at h
    by_cases h1 : n ∈ s.running
    · simp [h1] at h
      intro m
      subst h
      by_cases hm : m = n <;> simp [hm, List.mem_filter, hinv m]
    · simp [h1] at h
  | markFailed n msg e =>
    rw [applyOp] at h
    by_cases h1 : n ∈ s.running
    · simp [h1] at h
      intro m
      subst h
      by_cases hm : m = n <;> simp [hm, List.mem_filter, hinv m]
    · simp [h1] at h

/-- One operation other than `mark_step_running n` leaves a terminal
status of `n` unchanged, and keeps the invariant. -/
theorem schedTerminal_step (s s2 : SchedState) (op : SchedOp) (n : String)
    (hinv : SchedInv s) (hterm : terminalCtx (s.ctxStatus n) = true)
    (hop : op ≠ SchedOp.markRunning n) (h : applyOp s op = .ok s2) :
    s2.ctxStatus n = s.ctxStatus n := by
  cases op with
  | markRunning m =>
    rw [applyOp] at h
    by_cases h1 : m ∈ s.running
    · simp [h1] at h
    · by_cases h2 : m ∈ s.names
      · simp [h1, h2] at h
        subst h
        have hmn : n ≠ m := fun he => hop (by rw [he])
        simp [hmn]
      · simp [h1, h2] at h
  | markCompleted m e =>
    rw [applyOp] at h
    by_cases h1 : m ∈ s.running
    · simp [h1] at h
      subst h
      by_cases hm : n = m
      · subst hm
        have := (hinv n).mp h1
        rw [this] at hterm
        simp [terminalCtx] at hterm
      · simp [hm]
    · simp [h1] at h
  | markFailed m msg e =>
    rw [applyOp] at h
    by_cases h1 : m ∈ s.running
    · simp [h1] at h
      subst h
      by_cases hm : n = m
      · subst hm
        have := (hinv n).mp h1
        rw [this] at hterm
        simp [terminalCtx] at hterm
      · simp [hm]
    · simp [h1] at h

theorem applyOps_append (s : SchedState) (t1 t2 : List SchedOp) :
    applyOps s (t1 ++ t2) =
      match applyOps s t1 with
      | .ok s1 => applyOps s1 t2
      | .error e => .error e := by
  induction t1 generalizing s with
  | nil => simp [applyOps]
  | cons op ops ih =>
    rw [List.cons_append, applyOps, applyOps]
    cases applyOp s op with
    | ok s2 => exact ih s2
    | error e => rfl

theorem schedTerminal_trace (n : String) :
    ∀ (t2 : List SchedOp) (s : SchedState), SchedInv s →
      terminalCtx (s.ctxStatus n) = true →
      (∀ op ∈ t2, op ≠ SchedOp.markRunning n) →
      ∀ s2, applyOps s t2 = .ok s2 → s2.ctxStatus n = s.ctxStatus n := by
  intro t2
  induction t2 with
  | nil =>
    intro s _ _ _ s2 h
    simp [applyOps] at h
    rw [h]
  | cons op ops ih =>
    intro s hinv hterm hno s2 h
    rw [applyOps] at h
    cases hop : applyOp s op with
    | error e => rw [hop] at h; cases h
    | ok s1 =>
      rw [hop] at h
      have hkeep : s1.ctxStatus n = s.ctxStatus n :=
        schedTerminal_step s s1 op n hinv hterm (hno op (by simp)) hop
      have hinv1 : SchedInv s1 := schedInv_applyOp s s1 op hinv hop
      have hterm1 : terminalCtx (s1.ctxStatus n) = true := by rw [hkeep]; exact hterm
      have := ih s1 hinv1 hterm1 (fun o ho => hno o (by simp [ho])) s2 h
      rw [this, hkeep]

theorem applyOps_inv :
    ∀ (t : List SchedOp) (s : SchedState), SchedInv s →
      ∀ s2, applyOps s t = .ok s2 → SchedInv s2 := by
  intro t
  induction t with
  | nil =>
    intro s hinv s2 h
    simp [applyOps] at h
    rw [← h]; exact hinv
  | cons op ops ih =>
    intro s hinv s2 h
    rw [applyOps] at h
    cases hop : applyOp s op with
    | error e => rw [hop] at h; cases h
    | ok s1 =>
      rw [hop] at h
      exact ih s1 (schedInv_applyOp s s1 op hinv hop) s2 h

/-- **C8 (amended).** Once a step's context status is terminal
(`completed` or `failed`), no subsequent scheduler operation changes it
again *as long as the step is not passed to `mark_step_running`*:
`mark_step_completed` and `mark_step_failed` reject steps that are not
running, and in every reachable state a terminal step is not in the
running set.  `mark_step_running` itself only rejects currently-running
steps, so it can return a terminal step to `running` — the claimed
unconditional absorption fails (see the counterexample). -/
theorem sched_terminal_absorbing (names : List String) (t1 t2 : List SchedOp)
    (n : String)
    (hno : ∀ op ∈ t2, op ≠ SchedOp.markRunning n)
    (hterm : (applyOps (initSched names) t1).toOption.map
      (fun s => terminalCtx (s.ctxStatus n)) = some true)
    (hsucc : (applyOps (initSched names) (t1 ++ t2)).toOption.isSome = true) :
    (applyOps (initSched names) (t1 ++ t2)).toOption.map (fun s => s.ctxStatus n) =
      (applyOps (initSched names) t1).toOption.map (fun s => s.ctxStatus n) := by
  cases h1 : applyOps (initSched names) t1 with
  | error e => rw [h1] at hterm; simp [Except.toOption] at hterm
  | ok s1 =>
    rw [h1] at hterm
    have hterm2 : terminalCtx (s1.ctxStatus n) = true := by
      simpa [Except.toOption] using hterm
    have hinv1 : SchedInv s1 :=
      applyOps_inv t1 (initSched names) (schedInv_init names) s1 h1
    rw [applyOps_append, h1] at hsucc ⊢
    show (applyOps s1 t2).toOption.map (fun s => s.ctxStatus n) =
      (Except.ok (ε := String) s1).toOption.map (fun s => s.ctxStatus n)
    have hsucc2 : (applyOps s1 t2).toOption.isSome = true := hsucc
    cases h2 : applyOps s1 t2 with
    | error e => rw [h2] at hsucc2; simp [Except.toOption] at hsucc2
    | ok s2 =>
      have hstep := schedTerminal_trace n t2 s1 hinv1 hterm2 hno s2 h2
      simp [Except.toOption, hstep]

/-- Witness for the amended C8 theorem: after `a` runs and completes,
running another step `b` leaves the status of `a` at `completed`. -/
theorem sched_terminal_absorbing_witness :
    (applyOps (initSched ["a", "b"])
      ([SchedOp.markRunning "a", SchedOp.markCompleted "a" 0] ++
        [SchedOp.markRunning "b"])).toOption.map (fun s => s.ctxStatus "a") =
      (applyOps (initSched ["a", "b"])
        [SchedOp.markRunning "a", SchedOp.markCompleted "a" 0]).toOption.map
        (fun s => s.ctxStatus "a") :=
  sched_terminal_absorbing ["a", "b"]
    [SchedOp.markRunning "a", SchedOp.markCompleted "a" 0]
    [SchedOp.markRunning "b"] "a"
    (by decide) (by decide) (by decide)

/-- **C8 counterexample.** The trace `mark_step_running a`,
`mark_step_completed a`, `mark_step_running a` raises no error (the
running-guard only rejects steps currently in the running set), and it
moves `a` from the terminal status `completed` back to `running`:
terminal states are not absorbing under the operations the scheduler
offers. -/
theorem sched_completed_then_running :
    (applyOps (initSched ["a"])
      [SchedOp.markRunning "a", SchedOp.markCompleted "a" 0]).toOption.map
      (fun s => s.ctxStatus "a") = some CtxStatus.completed ∧
    (applyOps (initSched ["a"])
      [SchedOp.markRunning "a", SchedOp.markCompleted "a" 0,
        SchedOp.markRunning "a"]).toOption.map
      (fun s => s.ctxStatus "a") = some CtxStatus.running := by
  constructor <;> rfl

/-! ## Reference scanning (C2)

`re.findall(r'\$\x7bsteps\.([^.]+)\.outputs\.[^\x7d]+\x7d', value)` from
src/bioinfo_flow/parser/resolvers/dependency_resolver.py.  Because the
character class `[^.]+` cannot contain the following literal dot and
`[^\x7d]+` cannot contain the closing brace, the regex engine's
greedy-with-backtracking match at a given position is deterministic:
the group is the maximal dot-free run and the body the maximal
brace-free run.  `findStepRefs` scans left to right, emitting each
group and resuming after the match, advancing one character on
failure — exactly `re.findall`. -/

/-- Try to complete a match of the step-reference pattern, given the
text `l` that follows `"$\x7bsteps."`.  On success, return the captured
group and the rest of the input after the closing brace. -/
def matchStepRefAt (l : List Char) : Option (List Char × List Char) :=
  let grp := l.takeWhile (fun c => c ≠ '.')
  let rest := l.dropWhile (fun c => c ≠ '.')
  if grp = [] then none
  else if startsWithL ".outputs.".data rest then
    let rest2 := rest.drop 9
    let body := rest2.takeWhile (fun c => c ≠ '}')
    let rest3 := rest2.dropWhile (fun c => c ≠ '}')
    if body = [] then none
    else
      match rest3 with
      | c :: rest4 => if c = '}' then some (grp, rest4) else none
      | [] => none
  else none

theorem matchStepRefAt_shrinks (l : List Char) (g r : List Char)
    (h : matchStepRefAt l = some (g, r)) : r.length < l.length := by
  simp only [matchStepRefAt] at h
  split at h
  · cases h
  · split at h
    · split at h
      · cases h
      · split at h
        next ch rest4 heq =>
          split at h
          · simp only [Option.some_inj, Prod.mk.injEq] at h
            obtain ⟨-, hr⟩ := h
            have e2 : (ch :: rest4).length ≤
                ((l.dropWhile (fun c => c ≠ '.')).drop 9).length := by
              rw [← heq]
              exact (List.dropWhile_sublist _).length_le
            have e3 : ((l.dropWhile (fun c => c ≠ '.')).drop 9).length ≤
                (l.dropWhile (fun c => c ≠ '.')).length := by
              simp [List.length_drop]
            have e4 : (l.dropWhile (fun c => c ≠ '.')).length ≤ l.length :=
              (List.dropWhile_sublist _).length_le
            simp only [List.length_cons] at e2
            rw [← hr]
            omega
          · cases h
        next => cases h
    · cases h

/-- `re.findall` of the step-reference pattern, with explicit fuel so
that the function is structurally recursive (kernel-evaluable).  Every
recursive call consumes at least one character, so any fuel of at
least the input length gives the same result
(`findStepRefsAux_fuel_irrelevant`). -/
def findStepRefsAux : Nat → List Char → List (List Char)
  | 0, _ => []
  | _ + 1, [] => []
  | fuel + 1, c :: cs =>
    if startsWithL "$\x7bsteps.".data (c :: cs) then
      match matchStepRefAt ((c :: cs).drop 8) with
      | some (grp, rest) => grp :: findStepRefsAux fuel rest
      | none => findStepRefsAux fuel cs
    else findStepRefsAux fuel cs

/-- `re.findall` of the step-reference pattern over the whole string. -/
def findStepRefs (v : List Char) : List (List Char) :=
  findStepRefsAux v.length v

theorem findStepRefsAux_fuel_irrelevant :
    ∀ (fuel : Nat) (v : List Char), v.length ≤ fuel →
      findStepRefsAux fuel v = findStepRefsAux v.length v := by
  intro fuel
  induction fuel using Nat.strong_induction_on with
  | _ fuel ih =>
    intro v hle
    match fuel, v with
    | 0, v =>
      have hv : v = [] := by
        cases v with
        | nil => rfl
        | cons c cs => simp at hle
      subst hv
      rfl
    | fuel + 1, [] => rfl
    | fuel + 1, c :: cs =>
      have hcs : cs.length ≤ fuel := by
        have : (c :: cs).length = cs.length + 1 := rfl
        omega
      rw [findStepRefsAux]
      conv_rhs => rw [show (c :: cs).length = cs.length + 1 from rfl, findStepRefsAux]
      cases hst : startsWithL "$\x7bsteps.".data (c :: cs) with
      | false =>
        simp only [hst, Bool.false_eq_true, if_false]
        rw [ih fuel (Nat.lt_succ_self fuel) cs hcs]
      | true =>
        simp only [hst, eq_self_iff_true, if_true]
        cases hm : matchStepRefAt ((c :: cs).drop 8) with
        | some t =>
          obtain ⟨grp, rest⟩ := t
          simp only []
          have hshrink := matchStepRefAt_shrinks _ _ _ hm
          have hdrop : ((c :: cs).drop 8).length ≤ cs.length := by
            simp [List.length_drop]
          have h1 : rest.length ≤ fuel := by omega
          have h2 : rest.length ≤ cs.length := by omega
          rw [ih fuel (Nat.lt_succ_self fuel) rest h1,
            ih cs.length (by omega) rest h2]
        | none =>
          simp only []
          rw [ih fuel (Nat.lt_succ_self fuel) cs hcs]

/-! ## Variable substitution (C4, C9)

`VariableResolver.resolve_string`
(src/bioinfo_flow/parser/resolvers/variable_resolver.py) with
`VAR_PATTERN = re.compile(r'\$\x7b([^\x7d]+)\x7d')`.  The inner
`replace` closure — which resolves one dotted reference against the
workflow context and may raise `ValueError` — is taken as a parameter
`repl`; the pattern scanning, the bounded fixed-point loop and the
final `search` check are embedded below. -/

/-- Leftmost match of `VAR_PATTERN`: the text before the match, the
captured group (nonempty, brace-free) and the text after the closing
brace.  A failed candidate at `"$\x7b"` cannot hide a later match
starting at the `\x7b` (a match needs `$`), so scanning resumes with
the following characters. -/
def findVarToken : List Char → Option (List Char × List Char × List Char)
  | [] => none
  | '$' :: '{' :: rest =>
    let body := rest.takeWhile (fun c => c ≠ '}')
    let rest2 := rest.dropWhile (fun c => c ≠ '}')
    if body = [] ∨ rest2 = [] then
      match findVarToken rest with
      | some (pre, b, post) => some ('$' :: '{' :: pre, b, post)
      | none => none
    else some ([], body, rest2.tail)
  | c :: cs =>
    match findVarToken cs with
    | some (pre, b, post) => some (c :: pre, b, post)
    | none => none

/-- `VAR_PATTERN.search(value)` is truthy. -/
def hasVarToken (v : List Char) : Bool :=
  (findVarToken v).isSome

theorem findVarToken_post_shrinks (v pre b post : List Char)
    (h : findVarToken v = some (pre, b, post)) : post.length < v.length := by
  rw [findVarToken.eq_def] at h
  split at h
  · cases h
  · next x rest =>
    simp only [] at h
    split at h
    · cases hrec : findVarToken rest with
      | none => rw [hrec] at h; cases h
      | some t =>
        obtain ⟨pre2, b2, post2⟩ := t
        rw [hrec] at h
        simp only [Option.some_inj, Prod.mk.injEq] at h
        obtain ⟨-, -, hpost⟩ := h
        subst hpost
        have hlen := findVarToken_post_shrinks rest pre2 b2 post2 hrec
        simp only [List.length_cons]
        omega
    · simp only [Option.some_inj, Prod.mk.injEq] at h
      obtain ⟨-, -, hpost⟩ := h
      subst hpost
      have h1 : (rest.dropWhile (fun c => c ≠ '}')).length ≤ rest.length :=
        (List.dropWhile_sublist _).length_le
      have h2 : (rest.dropWhile (fun c => c ≠ '}')).tail.length ≤
          (rest.dropWhile (fun c => c ≠ '}')).length := by
        cases rest.dropWhile (fun c => c ≠ '}') <;> simp
      simp only [List.length_cons]
      omega
  · next x c cs hnot =>
    cases hrec : findVarToken cs with
    | none => rw [hrec] at h; cases h
    | some t =>
      obtain ⟨pre2, b2, post2⟩ := t
      rw [hrec] at h
      simp only [Option.some_inj, Prod.mk.injEq] at h
      obtain ⟨-, -, hpost⟩ := h
      subst hpost
      have hlen := findVarToken_post_shrinks cs pre2 b2 post2 hrec
      simp only [List.length_cons]
      omega
  termination_by v.length
  decreasing_by all_goals (subst v; simp only [List.length_cons]; omega)

/-- One pass of `VAR_PATTERN.sub(replace, current_value)`: each
non-overlapping match is replaced left to right by the result of
`repl`; the replacement text is not rescanned; an exception from
`repl` aborts the pass. -/
def subPass (repl : List Char → Except String (List Char)) (v : List Char) :
    Except String (List Char) :=
  match hf : findVarToken v with
  | none => .ok v
  | some (pre, body, post) =>
    match repl body with
    | .error e => .error e
    | .ok rep =>
      match subPass repl post with
      | .ok r => .ok (pre ++ rep ++ r)
      | .error e => .error e
  termination_by v.length
  decreasing_by exact findVarToken_post_shrinks v pre body post hf

/-- The `prev_value`/`current_value` loop of `resolve_string`:
at most `fuel` iterations, each either detecting a fixed point or
applying one substitution pass. -/
def resolveLoop (repl : List Char → Except String (List Char)) :
    Nat → Option (List Char) → List Char → Except String (List Char)
  | 0, _, current => .ok current
  | k + 1, prev, current =>
    if prev = some current then .ok current
    else
      match subPass repl current with
      | .error e => .error e
      | .ok next => resolveLoop repl k (some current) next

/-- `VariableResolver.resolve_string` (`max_iterations = 10`): the loop
followed by the final `VAR_PATTERN.search` check. -/
def resolveString (repl : List Char → Except String (List Char))
    (value : List Char) : Except String (List Char) :=
  match resolveLoop repl 10 none value with
  | .error e => .error e
  | .ok current =>
    if hasVarToken current then
      .error ("Could not fully resolve variables after 10 iterations: " ++ String.mk current)
    else .ok current

theorem findVarToken_of_not_hasVarToken (v : List Char)
    (h : hasVarToken v = false) : findVarToken v = none := by
  rw [hasVarToken] at h
  exact Option.not_isSome_iff_eq_none.mp (by simp [h])

theorem subPass_of_no_token (repl : List Char → Except String (List Char))
    (v : List Char) (h : findVarToken v = none) : subPass repl v = .ok v := by
  rw [subPass.eq_def]
  split
  · rfl
  · next hf => rw [h] at hf; cases hf

/-- Shared evaluation lemma: a string with no `$\x7b...\x7d` token is
returned unchanged by `resolve_string`. -/
theorem resolveString_of_no_token (repl : List Char → Except String (List Char))
    (v : List Char) (h : hasVarToken v = false) : resolveString repl v = .ok v := by
  have hft : findVarToken v = none := findVarToken_of_not_hasVarToken v h
  have hloop : resolveLoop repl 10 none v = .ok v := by
    have e1 : resolveLoop repl 10 none v =
        match subPass repl v with
        | .error e => .error e
        | .ok next => resolveLoop repl 9 (some v) next := rfl
    rw [e1, subPass_of_no_token repl v hft]
    simp only []
    have e2 : resolveLoop repl 9 (some v) v =
        if some v = some v then Except.ok v
        else
          match subPass repl v with
          | .error e => .error e
          | .ok next => resolveLoop repl 8 (some v) next := rfl
    rw [e2]
    simp
  rw [resolveString, hloop]
  simp [h]

/-- **C4 (amended).** For every input string and resolution context,
`resolve_string` either raises an error or returns a string that
contains no complete `$\x7b...\x7d` token (no match of `VAR_PATTERN`):
the substitution loop runs to a fixed point within at most 10 passes
and the final `search` check rejects any remaining token.  (A bare
`"$\x7b"` with no closing brace is not a token and can survive — see
the counterexample, which is what forces the correction of the claim's
"contains no `$\x7b` substring".) -/
theorem resolveString_resolved_or_error (repl : List Char → Except String (List Char))
    (v : List Char) :
    (∃ e, resolveString repl v = .error e) ∨
    (∃ out, resolveString repl v = .ok out ∧ hasVarToken out = false) := by
  rw [resolveString]
  cases hl : resolveLoop repl 10 none v with
  | error e => exact Or.inl ⟨e, rfl⟩
  | ok cur =>
    by_cases hv : hasVarToken cur
    · exact Or.inl
        ⟨"Could not fully resolve variables after 10 iterations: " ++ String.mk cur,
          by simp [hv]⟩
    · exact Or.inr ⟨cur, by simp [hv], by simpa using hv⟩

/-- **C4 counterexample.** On the input `"$\x7bx"` (an unterminated
reference), `resolve_string` returns the string unchanged, and the
returned string does contain the substring `"$\x7b"` — contradicting
the claim that every returned string contains no such substring. -/
theorem resolveString_keeps_bare_dollar_brace :
    resolveString (fun _ => .error "unused") "$\x7bx".data = .ok "$\x7bx".data ∧
    hasSub "$\x7b".data "$\x7bx".data = true := by
  refine ⟨?_, by decide⟩
  exact resolveString_of_no_token _ _ (by decide)

/-! ## Step resolution (C9)

`VariableResolver.resolve_step`: a deep copy of the step in which first
each input and output `value` (when truthy), then the command, then the
container volume paths are passed through `resolve_string`.  The
`replace` closure depends on the step object being mutated, so the
closure family `replFor` receives the current partially-resolved
step. -/

structure RIODef where
  name : String
  value : Option (List Char)
deriving DecidableEq, Repr

structure RVolume where
  host : List Char
  container : List Char
deriving DecidableEq, Repr

structure RStep where
  name : String
  inputs : List RIODef
  outputs : List RIODef
  command : List Char
  volumes : Option (List RVolume)
  dependsOn : List String := []
deriving DecidableEq, Repr

/-- The `for io in ...` half-loop over one I/O list: `done` are the
already-processed entries, `todo` the rest; `mk` rebuilds the current
(partially mutated) step object that the `replace` closure sees. -/
def resolveIOs (replFor : RStep → List Char → Except String (List Char))
    (mk : List RIODef → RStep) :
    (done : List RIODef) → (todo : List RIODef) → Except String (List RIODef)
  | done, [] => .ok done
  | done, io :: todo =>
    match io.value with
    | some v =>
      if v ≠ [] then
        match resolveString (replFor (mk (done ++ io :: todo))) v with
        | .error e => .error e
        | .ok v2 => resolveIOs replFor mk (done ++ [{ io with value := some v2 }]) todo
      else resolveIOs replFor mk (done ++ [io]) todo
    | none => resolveIOs replFor mk (done ++ [io]) todo

def resolveVolumes (replFor : RStep → List Char → Except String (List Char))
    (mk : List RVolume → RStep) :
    (done : List RVolume) → (todo : List RVolume) → Except String (List RVolume)
  | done, [] => .ok done
  | done, vol :: todo =>
    match resolveString (replFor (mk (done ++ vol :: todo))) vol.host with
    | .error e => .error e
    | .ok h2 =>
      let vol2 : RVolume := { vol with host := h2 }
      match resolveString (replFor (mk (done ++ vol2 :: todo))) vol2.container with
      | .error e => .error e
      | .ok c2 => resolveVolumes replFor mk (done ++ [{ vol2 with container := c2 }]) todo

/-- `VariableResolver.resolve_step`: inputs, then outputs, then the
command, then the container volumes. -/
def resolveStep (replFor : RStep → List Char → Except String (List Char))
    (step : RStep) : Except String RStep :=
  match resolveIOs replFor (fun ios => { step with inputs := ios }) [] step.inputs with
  | .error e => .error e
  | .ok ins =>
    let s1 : RStep := { step with inputs := ins }
    match resolveIOs replFor (fun ios => { s1 with outputs := ios }) [] s1.outputs with
    | .error e => .error e
    | .ok outs =>
      let s2 : RStep := { s1 with outputs := outs }
      match resolveString (replFor s2) s2.command with
      | .error e => .error e
      | .ok cmd =>
        let s3 : RStep := { s2 with command := cmd }
        match s3.volumes with
        | none => .ok s3
        | some vols =>
          match resolveVolumes replFor (fun vs => { s3 with volumes := some vs }) [] vols with
          | .error e => .error e
          | .ok vs => .ok { s3 with volumes := some vs }

/-- A step all of whose string fields are literal (no variable token). -/
def ioIsLiteral (io : RIODef) : Bool :=
  match io.value with
  | some v => !hasVarToken v
  | none => true

def literalStep (s : RStep) : Bool :=
  !hasVarToken s.command &&
  s.inputs.all ioIsLiteral && s.outputs.all ioIsLiteral &&
  (match s.volumes with
   | some vols => vols.all (fun v => !hasVarToken v.host && !hasVarToken v.container)
   | none => true)

theorem resolveIOs_literal (replFor : RStep → List Char → Except String (List Char))
    (mk : List RIODef → RStep) :
    ∀ (todo done : List RIODef), (∀ io ∈ todo, ioIsLiteral io = true) →
      resolveIOs replFor mk done todo = .ok (done ++ todo) := by
  intro todo
  induction todo with
  | nil => intro done _; simp [resolveIOs]
  | cons io rest ih =>
    intro done hlit
    have hio : ioIsLiteral io = true := hlit io (by simp)
    have hrest : ∀ x ∈ rest, ioIsLiteral x = true := fun x hx => hlit x (by simp [hx])
    rw [resolveIOs]
    cases hv : io.value with
    | none =>
      rw [ih (done ++ [io]) hrest]
      simp
    | some v =>
      simp only []
      by_cases hne : v ≠ []
      · have hnt : hasVarToken v = false := by
          rw [ioIsLiteral, hv] at hio
          simpa using hio
        rw [if_pos hne, resolveString_of_no_token _ v hnt]
        simp only []
        have hioeq : ({ io with value := some v } : RIODef) = io := by
          cases io; simp_all
        rw [hioeq, ih (done ++ [io]) hrest]
        simp
      · rw [if_neg hne, ih (done ++ [io]) hrest]
        simp

theorem resolveVolumes_literal (replFor : RStep → List Char → Except String (List Char))
    (mk : List RVolume → RStep) :
    ∀ (todo done : List RVolume),
      (∀ v ∈ todo, hasVarToken v.host = false ∧ hasVarToken v.container = false) →
      resolveVolumes replFor mk done todo = .ok (done ++ todo) := by
  intro todo
  induction todo with
  | nil => intro done _; simp [resolveVolumes]
  | cons vol rest ih =>
    intro done hlit
    obtain ⟨hh, hc⟩ := hlit vol (by simp)
    have hrest : ∀ x ∈ rest, hasVarToken x.host = false ∧ hasVarToken x.container = false :=
      fun x hx => hlit x (by simp [hx])
    rw [resolveVolumes, resolveString_of_no_token _ vol.host hh]
    simp only []
    have hv1 : ({ vol with host := vol.host } : RVolume) = vol := by cases vol; rfl
    rw [hv1, resolveString_of_no_token _ vol.container hc]
    simp only []
    have hv2 : ({ vol with container := vol.container } : RVolume) = vol := by
      cases vol; rfl
    rw [hv2, ih (done ++ [vol]) hrest]
    simp

/-- **C9.** Resolution is idempotent on literals: a string with no
`$\x7b...\x7d` token is returned unchanged by `resolve_string`, and a
step all of whose string fields are literal is a fixed point of
`resolve_step` — hence a workflow of such steps resolves to itself. -/
theorem resolve_literal_fixed_point
    (repl : List Char → Except String (List Char)) (v : List Char)
    (hv : hasVarToken v = false)
    (replFor : RStep → List Char → Except String (List Char)) (step : RStep)
    (hstep : literalStep step = true) :
    resolveString repl v = .ok v ∧ resolveStep replFor step = .ok step := by
  refine ⟨resolveString_of_no_token repl v hv, ?_⟩
  rw [literalStep] at hstep
  simp only [Bool.and_eq_true, Bool.not_eq_true', List.all_eq_true] at hstep
  obtain ⟨⟨⟨hcmd, hins⟩, houts⟩, hvols⟩ := hstep
  obtain ⟨nm, ins, louts, cmd, vols, deplist⟩ := step
  simp only [] at hins houts hcmd hvols
  rw [resolveStep]
  rw [resolveIOs_literal replFor _ ins [] hins]
  simp only [List.nil_append]
  rw [resolveIOs_literal replFor _ louts [] houts]
  simp only [List.nil_append]
  rw [resolveString_of_no_token _ cmd hcmd]
  simp only []
  cases vols with
  | none => rfl
  | some vs =>
    simp only [] at hvols
    have hvall : ∀ x ∈ vs, hasVarToken x.host = false ∧ hasVarToken x.container = false := by
      intro x hx
      have hb := (List.all_eq_true.mp hvols) x hx
      simpa using hb
    simp only []
    rw [resolveVolumes_literal replFor _ vs [] hvall]
    simp only [List.nil_append]

/-- A concrete step whose string fields are all literal. -/
def literalSampleStep : RStep :=
  { name := "s1",
    inputs := [{ name := "ref", value := some "/r/g.fa".data }],
    outputs := [{ name := "out", value := some "o.txt".data }],
    command := "cat /r/g.fa".data,
    volumes := some [{ host := "/data".data, container := "/mnt".data }] }

/-- Witness for C9: a concrete literal string and a concrete literal
step resolve to themselves. -/
theorem resolve_literal_fixed_point_witness :
    resolveString (fun _ => .error "unused") "cat /r/g.fa".data =
      .ok "cat /r/g.fa".data ∧
    resolveStep (fun _ _ => .error "unused") literalSampleStep =
      .ok literalSampleStep :=
  resolve_literal_fixed_point (fun _ => .error "unused") "cat /r/g.fa".data
    (by decide) (fun _ _ => .error "unused") literalSampleStep (by decide)

/-! ## The implicit-dependency graph (C2) -/

theorem startsWithL_decomp :
    ∀ (pat l : List Char), startsWithL pat l = true →
      l = pat ++ l.drop pat.length := by
  intro pat
  induction pat with
  | nil => intro l _; simp
  | cons p ps ih =>
    intro l h
    cases l with
    | nil => simp [startsWithL] at h
    | cons c cs =>
      rw [startsWithL] at h
      obtain ⟨h1, h2⟩ := by simpa using h
      have := ih cs h2
      simp only [List.length_cons, List.drop_succ_cons, List.cons_append]
      rw [h1]
      exact congrArg (c :: ·) this

theorem matchStepRefAt_spec (l g r : List Char)
    (h : matchStepRefAt l = some (g, r)) :
    ∃ b, l = g ++ ".outputs.".data ++ b ++ ['}'] ++ r ∧
      g ≠ [] ∧ (∀ ch ∈ g, ch ≠ '.') ∧ b ≠ [] ∧ (∀ ch ∈ b, ch ≠ '}') := by
  simp only [matchStepRefAt] at h
  split at h
  · cases h
  · split at h
    · split at h
      · cases h
      · split at h
        next ch rest4 heq =>
          split at h
          · next hch =>
            simp only [Option.some_inj, Prod.mk.injEq] at h
            obtain ⟨hg, hr⟩ := h
            subst hch
            refine ⟨((l.dropWhile (fun c => c ≠ '.')).drop 9).takeWhile (fun c => c ≠ '}'),
              ?_, ?_, ?_, ?_, ?_⟩
            · have e1 : l = l.takeWhile (fun c => c ≠ '.') ++ l.dropWhile (fun c => c ≠ '.') :=
                (List.takeWhile_append_dropWhile _ _).symm
              have e2 : l.dropWhile (fun c => c ≠ '.') =
                  ".outputs.".data ++ (l.dropWhile (fun c => c ≠ '.')).drop 9 := by
                have := startsWithL_decomp ".outputs.".data
                  (l.dropWhile (fun c => c ≠ '.')) (by assumption)
                simpa using this
              have e3 : (l.dropWhile (fun c => c ≠ '.')).drop 9 =
                  ((l.dropWhile (fun c => c ≠ '.')).drop 9).takeWhile (fun c => c ≠ '}')
                    ++ ((l.dropWhile (fun c => c ≠ '.')).drop 9).dropWhile (fun c => c ≠ '}') :=
                (List.takeWhile_append_dropWhile _ _).symm
              rw [← hg, ← hr]
              conv_lhs => rw [e1, e2, e3, heq]
              simp [List.append_assoc]
            · rw [← hg]; assumption
            · intro ch2 hch2
              rw [← hg] at hch2
              have := List.mem_takeWhile_imp hch2
              simpa using this
            · assumption
            · intro ch2 hch2
              have := List.mem_takeWhile_imp hch2
              simpa using this
          · cases h
        next => cases h
    · cases h

/-- Soundness of the scan: every group that `findStepRefsAux` emits
comes from an actual substring of the input matching
`$\x7bsteps\.([^.]+)\.outputs\.[^\x7d]+\x7d`. -/
theorem findStepRefsAux_sound :
    ∀ (fuel : Nat) (v : List Char), ∀ g ∈ findStepRefsAux fuel v,
      ∃ a b c, v = a ++ "$\x7bsteps.".data ++ g ++ ".outputs.".data ++ b ++ ['}'] ++ c ∧
        g ≠ [] ∧ (∀ ch ∈ g, ch ≠ '.') ∧ b ≠ [] ∧ (∀ ch ∈ b, ch ≠ '}') := by
  intro fuel
  induction fuel with
  | zero => intro v g hg; simp [findStepRefsAux] at hg
  | succ fuel ih =>
    intro v g hg
    cases v with
    | nil => simp [findStepRefsAux] at hg
    | cons c cs =>
      rw [findStepRefsAux] at hg
      by_cases hst : startsWithL "$\x7bsteps.".data (c :: cs) = true
      · rw [if_pos hst] at hg
        cases hm : matchStepRefAt ((c :: cs).drop 8) with
        | none =>
          rw [hm] at hg
          simp only [] at hg
          obtain ⟨a, b, c2, hdec, hrest⟩ := ih cs g hg
          exact ⟨c :: a, b, c2, by rw [List.cons_append]; exact congrArg (c :: ·) hdec, hrest⟩
        | some t =>
          obtain ⟨grp, rest⟩ := t
          rw [hm] at hg
          simp only [] at hg
          have hv : (c :: cs) = "$\x7bsteps.".data ++ (c :: cs).drop 8 := by
            have := startsWithL_decomp "$\x7bsteps.".data (c :: cs) hst
            simpa using this
          obtain ⟨b0, hdec0, hg0ne, hg0dot, hb0ne, hb0br⟩ :=
            matchStepRefAt_spec ((c :: cs).drop 8) grp rest hm
          rcases List.mem_cons.mp hg with hgeq | hgtail
          · subst hgeq
            refine ⟨[], b0, rest, ?_, hg0ne, hg0dot, hb0ne, hb0br⟩
            rw [List.nil_append, hv, hdec0]
            simp [List.append_assoc]
          · obtain ⟨a, b, c2, hdec, hrest⟩ := ih rest g hgtail
            refine ⟨"$\x7bsteps.".data ++ grp ++ ".outputs.".data ++ b0 ++ ['}'] ++ a,
              b, c2, ?_, hrest⟩
            rw [hv, hdec0, hdec]
            simp [List.append_assoc]
      · rw [if_neg hst] at hg
        obtain ⟨a, b, c2, hdec, hrest⟩ := ih cs g hg
        exact ⟨c :: a, b, c2, by rw [List.cons_append]; exact congrArg (c :: ·) hdec, hrest⟩

/-- `DependencyResolver._add_deps_from_string`: the referenced step
names found in one string. -/
def depsFromString (v : List Char) : List String :=
  (findStepRefs v).map (fun g => String.mk g)

/-- `DependencyResolver._add_implicit_dependencies` for one step:
scan the command, each truthy input value, and the host and container
paths of every container volume. -/
def implicitDeps (s : RStep) : List String :=
  depsFromString s.command
    ++ s.inputs.flatMap (fun io =>
        match io.value with
        | some v => if v ≠ [] then depsFromString v else []
        | none => [])
    ++ (match s.volumes with
        | some vols => vols.flatMap (fun vol =>
            depsFromString vol.host ++ depsFromString vol.container)
        | none => [])

/-- `DependencyResolver._build_dependency_graph`: the dependency set of
step name `n` — explicit `depends_on` entries of the steps named `n`
plus the implicit references scanned from them.  The Python `graph` is
a `defaultdict(set)`; only membership is observable. -/
def dependencyGraph (steps : List RStep) (n : String) : List String :=
  steps.flatMap (fun s => if s.name = n then s.dependsOn else [])
    ++ steps.flatMap (fun s => if s.name = n then implicitDeps s else [])

theorem mem_implicitDeps (s : RStep) (d : String) :
    d ∈ implicitDeps s ↔
      (d ∈ depsFromString s.command ∨
       (∃ io ∈ s.inputs, ∃ v, io.value = some v ∧ v ≠ [] ∧ d ∈ depsFromString v) ∨
       (∃ vols, s.volumes = some vols ∧ ∃ vol ∈ vols,
         d ∈ depsFromString vol.host ∨ d ∈ depsFromString vol.container)) := by
  rw [implicitDeps]
  constructor
  · intro hd
    rcases List.mem_append.mp hd with hd1 | hd2
    · rcases List.mem_append.mp hd1 with hc | hin
      · exact Or.inl hc
      · obtain ⟨io, hio, hmem⟩ := List.mem_flatMap.mp hin
        cases hv : io.value with
        | none => rw [hv] at hmem; cases hmem
        | some v =>
          rw [hv] at hmem
          simp only [] at hmem
          by_cases hne : v ≠ []
          · rw [if_pos hne] at hmem
            exact Or.inr (Or.inl ⟨io, hio, v, hv, hne, hmem⟩)
          · rw [if_neg hne] at hmem; cases hmem
    · cases hvols : s.volumes with
      | none => rw [hvols] at hd2; cases hd2
      | some vols =>
        rw [hvols] at hd2
        simp only [] at hd2
        obtain ⟨vol, hvol, hmem⟩ := List.mem_flatMap.mp hd2
        exact Or.inr (Or.inr ⟨vols, rfl, vol, hvol, List.mem_append.mp hmem⟩)
  · intro hd
    rcases hd with hc | ⟨io, hio, v, hv, hne, hmem⟩ | ⟨vols, hvols, vol, hvol, hmem⟩
    · exact List.mem_append.mpr (Or.inl (List.mem_append.mpr (Or.inl hc)))
    · refine List.mem_append.mpr (Or.inl (List.mem_append.mpr (Or.inr ?_)))
      refine List.mem_flatMap.mpr ⟨io, hio, ?_⟩
      rw [hv]
      simp only []
      rw [if_pos hne]
      exact hmem
    · refine List.mem_append.mpr (Or.inr ?_)
      rw [hvols]
      simp only []
      exact List.mem_flatMap.mpr ⟨vol, hvol, List.mem_append.mpr hmem⟩

/-- **C2 (amended).** In `DependencyResolver._build_dependency_graph`,
the dependency set of step name `n` consists of exactly: the explicit
`depends_on` entries of the steps named `n`, together with — for every
substring of the step's command, of each truthy input value, and of
each container volume's host and container path that matches
`$\x7bsteps\.([^.]+)\.outputs\.[^\x7d]+\x7d` — the captured step name
`X`, *including* `X = n` itself (the code has no self-edge guard; see
the counterexample).  The scan runs on the text as given, before any
substitution.  The second conjunct certifies the scan: every name it
emits comes from an actual matching substring. -/
theorem dependencyGraph_characterization (steps : List RStep) (n d : String) :
    (d ∈ dependencyGraph steps n ↔
      ∃ s ∈ steps, s.name = n ∧
        (d ∈ s.dependsOn ∨
         d ∈ depsFromString s.command ∨
         (∃ io ∈ s.inputs, ∃ v, io.value = some v ∧ v ≠ [] ∧ d ∈ depsFromString v) ∨
         (∃ vols, s.volumes = some vols ∧ ∃ vol ∈ vols,
           d ∈ depsFromString vol.host ∨ d ∈ depsFromString vol.container))) ∧
    (∀ (v g : List Char), g ∈ findStepRefs v →
      ∃ a b c, v = a ++ "$\x7bsteps.".data ++ g ++ ".outputs.".data ++ b ++ ['}'] ++ c ∧
        g ≠ [] ∧ (∀ ch ∈ g, ch ≠ '.') ∧ b ≠ [] ∧ (∀ ch ∈ b, ch ≠ '}')) := by
  constructor
  · rw [dependencyGraph]
    constructor
    · intro hd
      rcases List.mem_append.mp hd with hd1 | hd2
      · obtain ⟨s, hs, hmem⟩ := List.mem_flatMap.mp hd1
        by_cases hname : s.name = n
        · rw [if_pos hname] at hmem
          exact ⟨s, hs, hname, Or.inl hmem⟩
        · rw [if_neg hname] at hmem; cases hmem
      · obtain ⟨s, hs, hmem⟩ := List.mem_flatMap.mp hd2
        by_cases hname : s.name = n
        · rw [if_pos hname] at hmem
          exact ⟨s, hs, hname, Or.inr ((mem_implicitDeps s d).mp hmem)⟩
        · rw [if_neg hname] at hmem; cases hmem
    · rintro ⟨s, hs, hname, hcase⟩
      rcases hcase with hdep | himp
      · refine List.mem_append.mpr (Or.inl ?_)
        refine List.mem_flatMap.mpr ⟨s, hs, ?_⟩
        rw [if_pos hname]
        exact hdep
      · refine List.mem_append.mpr (Or.inr ?_)
        refine List.mem_flatMap.mpr ⟨s, hs, ?_⟩
        rw [if_pos hname]
        exact (mem_implicitDeps s d).mpr himp
  · intro v g hg
    exact findStepRefsAux_sound v.length v g hg

/-- A step whose command references its own outputs. -/
def selfRefStep : RStep :=
  { name := "s", inputs := [], outputs := [],
    command := "$\x7bsteps.s.outputs.o\x7d".data, volumes := none, dependsOn := [] }

/-- **C2 counterexample.** For a step `s` whose command contains
`"$\x7bsteps.s.outputs.o\x7d"`, the built graph contains the self-edge
`s → s`: the claim's "except when X equals s.name (no self-edge)" does
not hold of `DependencyResolver._add_deps_from_string`, which has no
such guard. -/
theorem dependencyGraph_has_self_edge :
    "s" ∈ dependencyGraph [selfRefStep] "s" := by decide

/-- A two-step workflow in which `s2` references `s1` from an input
value and a volume host path, with no explicit `depends_on`. -/
def twoStepWorkflow : List RStep :=
  [{ name := "s1", inputs := [], outputs := [],
     command := "echo hi".data, volumes := none, dependsOn := [] },
   { name := "s2",
     inputs := [{ name := "i", value := some "$\x7bsteps.s1.outputs.o\x7d".data }],
     outputs := [], command := "run".data,
     volumes := some [{ host := "$\x7bsteps.s1.outputs.d\x7d".data,
                        container := "/mnt".data }],
     dependsOn := [] }]

/-- Witness for the amended C2 theorem: on `twoStepWorkflow` the
characterization holds, and in particular the edge `s1 → s2` exists
(the scan certificate instantiated at the concrete input value). -/
theorem dependencyGraph_characterization_witness :
    "s1" ∈ dependencyGraph twoStepWorkflow "s2" ∧
    (∃ a b c, "$\x7bsteps.s1.outputs.o\x7d".data =
      a ++ "$\x7bsteps.".data ++ "s1".data ++ ".outputs.".data ++ b ++ ['}'] ++ c ∧
      "s1".data ≠ [] ∧ (∀ ch ∈ "s1".data, ch ≠ '.') ∧ b ≠ [] ∧
      (∀ ch ∈ b, ch ≠ '}')) := by
  obtain ⟨hiff, hsound⟩ := dependencyGraph_characterization twoStepWorkflow "s2" "s1"
  constructor
  · refine hiff.mpr ?_
    refine ⟨twoStepWorkflow.get ⟨1, by decide⟩, by decide, by decide, ?_⟩
    refine Or.inr (Or.inr (Or.inl ?_))
    refine ⟨{ name := "i", value := some "$\x7bsteps.s1.outputs.o\x7d".data }, by decide,
      "$\x7bsteps.s1.outputs.o\x7d".data, by decide, by decide, by decide⟩
  · exact hsound "$\x7bsteps.s1.outputs.o\x7d".data "s1".data (by decide)

end BioFlow
